import Mathlib

/-!
Verification of the Morton-order quadrant algebra and the minimal
complete-region construction of the p4est core (2D version).

The repository ships the interface contracts in `p4est_algorithms.h`; the
function bodies are modelled here from the specification's component design
(spec sections 3, 4 and 7), faithfully to its words: fixed-point Morton
coordinates with `P4EST_MAXLEVEL = 30` significant bits, canonical alignment,
level-ascending tie-break in the comparator, bit-truncation fast paths with
parent-walk descriptive oracles, and the divide-and-conquer region
construction (algorithm 2 of Sundar, Sampath and Biros).
-/

/-- Maximum refinement level: spec section 3, "typically MAXLEVEL = 30 for
32-bit coordinates". -/
def P4EST_MAXLEVEL : Nat := 30

/-- Side length of a quadrant at a given level, in coordinate units
(`P4EST_QUADRANT_LEN`): the spec's "domain size at `level`" scaling. -/
def qlen (l : Nat) : Nat := 2 ^ (P4EST_MAXLEVEL - l)

/-- Modelled from the spec: a quadrant is an ordered tuple of two integer
coordinates in a fixed-point Morton coordinate space, plus an integer level,
plus an opaque user-data handle excluded from equality (spec section 3). -/
structure Quadrant where
  x : Nat
  y : Nat
  level : Nat
  user_data : Nat
deriving DecidableEq, Repr

/-- Truncate a coordinate to the `l` most significant bit positions: all bits
below level `l`'s significant bits are cleared (spec's "canonical form"). -/
def coordTrunc (l x : Nat) : Nat := x / qlen l * qlen l

/-- Modelled from the spec: `p4est_quadrant_is_valid` (body missing from the
sources).  Coordinates non-negative, below the domain size, bit pattern below
`level`'s significant bits zero, and `level` in `[0, MAXLEVEL]`
(spec section 3, validity invariant). -/
def p4est_quadrant_is_valid (q : Quadrant) : Bool :=
  decide (q.level ≤ P4EST_MAXLEVEL) && decide (q.x < 2 ^ P4EST_MAXLEVEL) &&
  decide (q.y < 2 ^ P4EST_MAXLEVEL) &&
  decide (q.x % qlen q.level = 0) && decide (q.y % qlen q.level = 0)

/-- Modelled from the spec: `p4est_quadrant_is_equal` (body missing from the
sources): exact coordinate and level match; user-data excluded. -/
def p4est_quadrant_is_equal (q1 q2 : Quadrant) : Bool :=
  decide (q1.x = q2.x) && decide (q1.y = q2.y) && decide (q1.level = q2.level)

/-- Bit interleaving of two coordinates (x in the even bit positions, y in
the odd ones), with explicit fuel so that it is structurally recursive. -/
def mortonAux : Nat → Nat → Nat → Nat
  | 0, _, _ => 0
  | f + 1, x, y => x % 2 + 2 * (y % 2) + 4 * mortonAux f (x / 2) (y / 2)

/-- Morton-interleaved value of a coordinate pair, at full bit depth
(32 bits of fuel cover the 30-bit coordinate space). -/
def mortonInterleave (x y : Nat) : Nat := mortonAux 32 x y

/-- Morton-interleaved coordinate value of a quadrant at full bit depth. -/
def mortonVal (q : Quadrant) : Nat := mortonInterleave q.x q.y

/-- Modelled from the spec: `p4est_quadrant_compare` (body missing from the
sources).  First compare by Morton-interleaved coordinate value at full bit
depth, then break ties by level ascending, so a coarser quadrant sorts before
a finer descendant at the same origin (spec section 4.2). -/
def p4est_quadrant_compare (q1 q2 : Quadrant) : Int :=
  if mortonVal q1 = mortonVal q2 then (q1.level : Int) - (q2.level : Int)
  else (mortonVal q1 : Int) - (mortonVal q2 : Int)

/-- Child id of the ancestor at level `l` on the path to `q`: the `l`-th
most significant bit group of the coordinate tuple, interleaved across axes. -/
def childIdAt (l : Nat) (q : Quadrant) : Nat :=
  q.x / qlen l % 2 + 2 * (q.y / qlen l % 2)

/-- Modelled from the spec: `p4est_quadrant_child_id` (body missing from the
sources): extract the `level`-th most-significant 2-bit group from the
coordinate tuple, interleaved across axes (spec section 4.2). -/
def p4est_quadrant_child_id (q : Quadrant) : Nat := childIdAt q.level q

/-- Modelled from the spec: `p4est_quadrant_parent` (body missing from the
sources): clear the bits that distinguish level `q.level` from
`q.level - 1` in every coordinate and set the level to `q.level - 1`; the
result is written into `r`, whose user-data is untouched (spec section 4.3
and the header contract). -/
def p4est_quadrant_parent (q r : Quadrant) : Quadrant :=
  { r with
    x := coordTrunc (q.level - 1) q.x
    y := coordTrunc (q.level - 1) q.y
    level := q.level - 1 }

/-- Parent computed in place (the header's aliasing contract `r = q`). -/
def parentQ (q : Quadrant) : Quadrant := p4est_quadrant_parent q q

/-- Modelled from the spec: `p4est_quadrant_is_sibling` (body missing from
the sources): same nonzero level, coordinates differ, and same parent,
computed by bit truncation without constructing the parent
(spec section 4.2). -/
def p4est_quadrant_is_sibling (q1 q2 : Quadrant) : Bool :=
  decide (q1.level = q2.level) && decide (q1.level ≠ 0) &&
  (decide (q1.x ≠ q2.x) || decide (q1.y ≠ q2.y)) &&
  decide (coordTrunc (q1.level - 1) q1.x = coordTrunc (q2.level - 1) q2.x) &&
  decide (coordTrunc (q1.level - 1) q1.y = coordTrunc (q2.level - 1) q2.y)

/-- Modelled from the spec: `p4est_quadrant_is_sibling_D` (body missing from
the sources): the descriptive oracle constructs both parents and compares
them (spec section 4.2); constructing a parent requires nonzero level. -/
def p4est_quadrant_is_sibling_D (q1 q2 : Quadrant) : Bool :=
  if p4est_quadrant_is_equal q1 q2 then false
  else if q1.level = 0 ∨ q2.level = 0 then false
  else p4est_quadrant_is_equal (parentQ q1) (parentQ q2)

/-- Modelled from the spec: `p4est_quadrant_is_parent` (body missing from the
sources): `r.level = q.level + 1` and `r`'s coordinates truncated to
`q.level` significant bits equal `q`'s coordinates (spec section 4.2). -/
def p4est_quadrant_is_parent (q r : Quadrant) : Bool :=
  decide (r.level = q.level + 1) &&
  decide (coordTrunc q.level r.x = q.x) && decide (coordTrunc q.level r.y = q.y)

/-- Modelled from the spec: `p4est_quadrant_is_parent_D` (body missing from
the sources): the descriptive oracle constructs the parent of `r` and
compares it with `q`. -/
def p4est_quadrant_is_parent_D (q r : Quadrant) : Bool :=
  if r.level = 0 then false
  else p4est_quadrant_is_equal q (parentQ r)

/-- Modelled from the spec: `p4est_quadrant_is_ancestor` (body missing from
the sources): `q.level < r.level` (hence `q ≠ r`) and `r`'s coordinates
truncated to `q.level` bits equal `q`'s coordinates (spec section 4.2). -/
def p4est_quadrant_is_ancestor (q r : Quadrant) : Bool :=
  decide (q.level < r.level) &&
  decide (coordTrunc q.level r.x = q.x) && decide (coordTrunc q.level r.y = q.y)

/-- Iterated parent: walk `k` parent links starting from `q`. -/
def parentIter (q : Quadrant) : Nat → Quadrant
  | 0 => q
  | k + 1 => parentQ (parentIter q k)

/-- Modelled from the spec: `p4est_quadrant_is_ancestor_D` (body missing
from the sources): the descriptive oracle walks parent links repeatedly from
`r` up to `q`'s level and compares with `q` (spec section 4.2). -/
def p4est_quadrant_is_ancestor_D (q r : Quadrant) : Bool :=
  if q.level < r.level then
    p4est_quadrant_is_equal q (parentIter r (r.level - q.level))
  else false

/-- Number of bits of `n` (position of the highest set bit plus one), with
explicit fuel so that it is structurally recursive; 64 bits of fuel cover
every value arising from 30-bit coordinates. -/
def bitLenAux : Nat → Nat → Nat
  | 0, _ => 0
  | f + 1, n => if n = 0 then 0 else bitLenAux f (n / 2) + 1

/-- Number of significant bits of a coordinate-sized value. -/
def bitLength (n : Nat) : Nat := bitLenAux 64 n

/-- Level of the nearest common ancestor: XOR the coordinate tuples, find
the highest set bit across all coordinates to obtain the finest level at
which the bit groups still agree, and cap it by both input levels (the
ancestor can be no finer than either input). -/
def ncaLevel (q1 q2 : Quadrant) : Nat :=
  min (P4EST_MAXLEVEL - bitLength ((q1.x ^^^ q2.x) ||| (q1.y ^^^ q2.y)))
    (min q1.level q2.level)

/-- Modelled from the spec: `p4est_nearest_common_ancestor` (body missing
from the sources): XOR the coordinate tuples, find the highest set bit
across all coordinates to obtain the coarsest level at which the bit groups
first diverge, cap it by both input levels (the ancestor can be no finer
than either input, spec glossary: the coarsest cell containing both), and
mask the coordinates accordingly; the result is written into `r`, whose
user-data is untouched (spec section 4.3). -/
def p4est_nearest_common_ancestor (q1 q2 r : Quadrant) : Quadrant :=
  { r with
    x := coordTrunc (ncaLevel q1 q2) q1.x
    y := coordTrunc (ncaLevel q1 q2) q1.y
    level := ncaLevel q1 q2 }

/-- One stage of the descriptive ancestor walk: starting from two quadrants
at a common level, repeatedly replace both by their parents until the
coordinates agree; the fuel dominates the common level plus one. -/
def ncaWalk : Nat → Quadrant → Quadrant → Quadrant
  | 0, s1, _ => s1
  | f + 1, s1, s2 =>
    if s1.x = s2.x ∧ s1.y = s2.y then s1
    else ncaWalk f (parentQ s1) (parentQ s2)

/-- Modelled from the spec: `p4est_nearest_common_ancestor_D` (body missing
from the sources): the descriptive oracle first walks the deeper input up to
the common level by repeated parents, then walks both up in lockstep until
they coincide (spec section 4.3, the O(level) repeated-parent walk). -/
def p4est_nearest_common_ancestor_D (q1 q2 r : Quadrant) : Quadrant :=
  let l := min q1.level q2.level
  let s1 := parentIter q1 (q1.level - l)
  let s2 := parentIter q2 (q2.level - l)
  let a := ncaWalk (l + 1) s1 s2
  { r with x := a.x, y := a.y, level := a.level }

/-- The `i`-th child of `q` (0 ≤ i < 4): `q`'s coordinates with the new bit
group at position `q.level` set to the child id's bit pattern, and level
`q.level + 1` (spec section 4.3). -/
def childOf (q : Quadrant) (i : Nat) : Quadrant :=
  { q with
    x := q.x + i % 2 * qlen (q.level + 1)
    y := q.y + i / 2 % 2 * qlen (q.level + 1)
    level := q.level + 1 }

/-- Copy the Morton index (coordinates and level) of `s` into `r`, leaving
`r`'s user-data untouched. -/
def setCoords (r s : Quadrant) : Quadrant :=
  { r with x := s.x, y := s.y, level := s.level }

/-- Modelled from the spec: `p4est_quadrant_children` (body missing from the
sources): produce the four children in child-id order 0..3, writing the
Morton indices into `c0..c3`, whose user-data is never modified
(spec section 4.3 and the header contract). -/
def p4est_quadrant_children (q c0 c1 c2 c3 : Quadrant) :
    Quadrant × Quadrant × Quadrant × Quadrant :=
  (setCoords c0 (childOf q 0), setCoords c1 (childOf q 1),
   setCoords c2 (childOf q 2), setCoords c3 (childOf q 3))

/-- Extract the even-position bits of a Morton index (fuel-limited). -/
def deintAux : Nat → Nat → Nat
  | 0, _ => 0
  | f + 1, m => m % 2 + 2 * deintAux f (m / 4)

/-- Modelled from the spec: `p4est_quadrant_set_morton` (body missing from
the sources): deconstruct the linear index's bits, two per level, into the
coordinate tuple, producing a canonical quadrant; the header documents the
numeric precondition `level < 16` (so the 2D linear index fits 32 bits) and
the spec requires the range to be guarded explicitly at the API boundary
rather than silently wrapped (spec sections 4.1 and 7), hence the `Option`
result; the user-data of the quadrant is never modified. -/
def p4est_quadrant_set_morton (q : Quadrant) (level index : Nat) :
    Option Quadrant :=
  if level < 16 ∧ index < 4 ^ level then
    some { q with
           x := deintAux level index * qlen level
           y := deintAux level (index / 2) * qlen level
           level := level }
  else none

/-- Modelled from the spec: `p4est_tree_is_sorted` (body missing from the
sources): scan the quadrant sequence pairwise and require a strict increase
under the comparator for every adjacent pair (spec section 4.4). -/
def p4est_tree_is_sorted : List Quadrant → Bool
  | [] => true
  | [_] => true
  | q :: r :: rest =>
    decide (p4est_quadrant_compare q r < 0) && p4est_tree_is_sorted (r :: rest)

/-- The children of `c` with ids `lo, lo+1, ..., hi-1`, in child-id order. -/
def childSeg (c : Quadrant) (lo hi : Nat) : List Quadrant :=
  (List.range' lo (hi - lo)).map (childOf c)

/-- Minimal quadrant sequence covering the part of `c`'s subtree strictly
after `q`'s subtree (spec section 4.5, step 4: the upper fill from `q` to
the end of the containing child's subtree); the fuel is the level distance
from `c` down to `q`. -/
def fillAfterGo : Nat → Quadrant → Quadrant → List Quadrant
  | 0, _, _ => []
  | f + 1, q, c =>
    let i := childIdAt (c.level + 1) q
    fillAfterGo f q (childOf c i) ++ childSeg c (i + 1) 4

/-- Minimal quadrant sequence covering the part of `c`'s subtree strictly
before `q`'s subtree (spec section 4.5, step 5: the lower fill from the
start of the containing child's subtree up to `q`). -/
def fillBeforeGo : Nat → Quadrant → Quadrant → List Quadrant
  | 0, _, _ => []
  | f + 1, q, c =>
    let i := childIdAt (c.level + 1) q
    childSeg c 0 i ++ fillBeforeGo f q (childOf c i)

/-- Modelled from the spec: the interior of the region construction
(spec section 4.5, steps 1-6): compute the nearest common ancestor `a`; if
one endpoint equals `a` (it is an ancestor of the other), emit the
appropriate children subtree directly; otherwise emit the upper fill inside
`a`'s child containing `q1`, every child of `a` strictly between the two
containing children as-is, and the lower fill inside `a`'s child containing
`q2`, concatenated in Morton order. -/
def completeRegionBody (q1 q2 a : Quadrant) : List Quadrant :=
  if p4est_quadrant_is_equal q1 a then fillBeforeGo (q2.level - a.level) q2 a
  else if p4est_quadrant_is_equal q2 a then fillAfterGo (q1.level - a.level) q1 a
  else
    fillAfterGo (q1.level - a.level - 1) q1
        (childOf a (childIdAt (a.level + 1) q1))
      ++ childSeg a (childIdAt (a.level + 1) q1 + 1) (childIdAt (a.level + 1) q2)
      ++ fillBeforeGo (q2.level - a.level - 1) q2
        (childOf a (childIdAt (a.level + 1) q2))

def completeRegionList (q1 q2 : Quadrant) : List Quadrant :=
  completeRegionBody q1 q2 (p4est_nearest_common_ancestor q1 q2 q1)

/-- Modelled from the spec: `p4est_complete_region` (body missing from the
sources): given `q1 < q2` in the Morton ordering and two inclusion flags,
append to the (empty) input tree the minimal sorted quadrant sequence whose
union covers the region between `q1` and `q2`, honoring the inclusion flags
for the endpoints (spec section 4.5, steps 1-7).  The ordering precondition
is a contract whose violation is surfaced as a defined failure and never
partially applied (spec section 7), hence the `Option` result.  The
per-quadrant user-data initialization hook (step 8) is an external callback
outside this pure construction. -/
def p4est_complete_region (q1 : Quadrant) (include_q1 : Bool)
    (q2 : Quadrant) (include_q2 : Bool) (tree : List Quadrant) :
    Option (List Quadrant) :=
  if p4est_quadrant_compare q1 q2 < 0 then
    some (tree ++ (if include_q1 then [q1] else [])
               ++ completeRegionList q1 q2
               ++ (if include_q2 then [q2] else []))
  else none

/-- Size of a quadrant's extent in Morton-space measure: a level-`l`
quadrant covers `4 ^ (MAXLEVEL - l)` leaf positions of the full-depth grid. -/
def qsize (q : Quadrant) : Nat := 4 ^ (P4EST_MAXLEVEL - q.level)

/-- One past the last Morton position covered by `q`'s extent. -/
def qendM (q : Quadrant) : Nat := mortonVal q + qsize q

/-- `tiles L lo hi`: the quadrants of `L` tile the Morton interval
`[lo, hi)` exactly, consecutively and in order. -/
def tiles : List Quadrant → Nat → Nat → Prop
  | [], lo, hi => lo = hi
  | e :: rest, lo, hi => mortonVal e = lo ∧ tiles rest (qendM e) hi

/-- A point of the full-depth coordinate grid lies in `q`'s extent. -/
def inExtent (q : Quadrant) (u v : Nat) : Prop :=
  q.x ≤ u ∧ u < q.x + qlen q.level ∧ q.y ≤ v ∧ v < q.y + qlen q.level

/-! ### Arithmetic facts about `qlen` and `coordTrunc` -/

theorem qlen_pos (l : Nat) : 0 < qlen l := Nat.pos_pow_of_pos _ (by decide)

theorem qlen_dvd {l m : Nat} (h : l ≤ m) : qlen m ∣ qlen l :=
  Nat.pow_dvd_pow 2 (Nat.sub_le_sub_left h _)

theorem coordTrunc_le (l x : Nat) : coordTrunc l x ≤ x :=
  Nat.div_mul_le_self x (qlen l)

theorem qlen_dvd_coordTrunc (l x : Nat) : qlen l ∣ coordTrunc l x :=
  Dvd.intro_left _ rfl

theorem coordTrunc_eq_self {l x : Nat} (h : x % qlen l = 0) :
    coordTrunc l x = x :=
  Nat.div_mul_cancel (Nat.dvd_of_mod_eq_zero h)

theorem coordTrunc_add_mod (l x : Nat) :
    coordTrunc l x + x % qlen l = x := by
  unfold coordTrunc
  rw [Nat.mul_comm]
  exact Nat.div_add_mod x (qlen l)

theorem trunc_pow_comp {a b x : Nat} (h : b ≤ a) :
    x / 2 ^ b * 2 ^ b / 2 ^ a * 2 ^ a = x / 2 ^ a * 2 ^ a := by
  have key : x / 2 ^ b * 2 ^ b / 2 ^ a = x / 2 ^ a := by
    conv_lhs =>
      rw [show (2:Nat) ^ a = 2 ^ b * 2 ^ (a - b) by
        rw [← pow_add]; congr 1; omega]
    rw [← Nat.div_div_eq_div_mul,
      Nat.mul_div_cancel _ (Nat.pos_pow_of_pos b (by decide)),
      Nat.div_div_eq_div_mul, ← pow_add]
    congr 2
    omega
  rw [key]

theorem coordTrunc_comp {l m : Nat} (h : l ≤ m) (x : Nat) :
    coordTrunc l (coordTrunc m x) = coordTrunc l x := by
  unfold coordTrunc qlen
  exact trunc_pow_comp (Nat.sub_le_sub_left h _)

theorem halves_mul (d P : Nat) : d / 2 * (P * 2) + d % 2 * P = d * P := by
  have h : 2 * (d / 2) + d % 2 = d := by omega
  calc d / 2 * (P * 2) + d % 2 * P = (2 * (d / 2) + d % 2) * P := by ring
    _ = d * P := by rw [h]

theorem coordTrunc_step {l : Nat} (h : l < P4EST_MAXLEVEL) (x : Nat) :
    coordTrunc (l + 1) x = coordTrunc l x + x / qlen (l + 1) % 2 * qlen (l + 1) := by
  have hq : qlen l = qlen (l + 1) * 2 := by
    unfold qlen
    rw [← pow_succ]
    congr 1
    omega
  unfold coordTrunc
  rw [hq, ← Nat.div_div_eq_div_mul]
  exact (halves_mul (x / qlen (l + 1)) (qlen (l + 1))).symm

/-! ### Facts about the fuel-limited Morton interleave -/

theorem mortonAux_zero (f : Nat) : mortonAux f 0 0 = 0 := by
  induction f with
  | zero => rfl
  | succ f ih => simp [mortonAux, ih]

theorem mortonAux_fuel {f : Nat} : ∀ {g x y : Nat}, f ≤ g → x < 2 ^ f → y < 2 ^ f →
    mortonAux g x y = mortonAux f x y := by
  induction f with
  | zero =>
    intro g x y _ hx hy
    have hx0 : x = 0 := by omega
    have hy0 : y = 0 := by omega
    subst hx0; subst hy0
    rw [mortonAux_zero, mortonAux_zero]
  | succ f ih =>
    intro g x y hfg hx hy
    match g, hfg with
    | g + 1, hfg =>
      show mortonAux (g + 1) x y = mortonAux (f + 1) x y
      simp only [mortonAux]
      have hx2 : x / 2 < 2 ^ f := by
        rw [Nat.div_lt_iff_lt_mul (by decide : 0 < 2)]
        calc x < 2 ^ (f + 1) := hx
          _ = 2 ^ f * 2 := by rw [pow_succ]
      have hy2 : y / 2 < 2 ^ f := by
        rw [Nat.div_lt_iff_lt_mul (by decide : 0 < 2)]
        calc y < 2 ^ (f + 1) := hy
          _ = 2 ^ f * 2 := by rw [pow_succ]
      rw [ih (by omega) hx2 hy2]

theorem mortonAux_lt {f : Nat} : ∀ {x y : Nat}, x < 2 ^ f → y < 2 ^ f →
    mortonAux f x y < 4 ^ f := by
  induction f with
  | zero => intro x y _ _; simp [mortonAux]
  | succ f ih =>
    intro x y hx hy
    have hx2 : x / 2 < 2 ^ f := by
      rw [Nat.div_lt_iff_lt_mul (by decide : 0 < 2)]
      calc x < 2 ^ (f + 1) := hx
        _ = 2 ^ f * 2 := by rw [pow_succ]
    have hy2 : y / 2 < 2 ^ f := by
      rw [Nat.div_lt_iff_lt_mul (by decide : 0 < 2)]
      calc y < 2 ^ (f + 1) := hy
        _ = 2 ^ f * 2 := by rw [pow_succ]
    have h := ih hx2 hy2
    have h4 : (4:Nat) ^ (f + 1) = 4 ^ f * 4 := by rw [pow_succ]
    simp only [mortonAux]
    omega

theorem dvd_two_of_dvd_pow_succ {k u : Nat} (h : 2 ^ (k + 1) ∣ u) : u % 2 = 0 := by
  have h2 : 2 ∣ u := dvd_trans ⟨2 ^ k, by rw [pow_succ]; ring⟩ h
  omega

theorem dvd_pow_div_two {k u : Nat} (h : 2 ^ (k + 1) ∣ u) : 2 ^ k ∣ u / 2 := by
  obtain ⟨c, hc⟩ := h
  refine ⟨c, ?_⟩
  rw [hc, pow_succ, Nat.mul_comm (2 ^ k) 2, Nat.mul_assoc,
    Nat.mul_div_cancel_left _ (by decide : 0 < 2)]

theorem mortonAux_split {k : Nat} : ∀ {f u s v t : Nat},
    2 ^ k ∣ u → 2 ^ k ∣ s → v < 2 ^ k → t < 2 ^ k →
    mortonAux f (u + v) (s + t) = mortonAux f u s + mortonAux f v t := by
  induction k with
  | zero =>
    intro f u s v t _ _ hv ht
    rw [pow_zero] at hv ht
    have hv0 : v = 0 := by omega
    have ht0 : t = 0 := by omega
    subst hv0; subst ht0
    rw [mortonAux_zero]
    simp
  | succ k ih =>
    intro f u s v t hu hs hv ht
    match f with
    | 0 => simp [mortonAux]
    | f + 1 =>
      have hu2 : u % 2 = 0 := dvd_two_of_dvd_pow_succ hu
      have hs2 : s % 2 = 0 := dvd_two_of_dvd_pow_succ hs
      have hud : 2 ^ k ∣ u / 2 := dvd_pow_div_two hu
      have hsd : 2 ^ k ∣ s / 2 := dvd_pow_div_two hs
      have hp : (2:Nat) ^ (k + 1) = 2 * 2 ^ k := by rw [pow_succ]; ring
      rw [hp] at hv ht
      have hv2 : v / 2 < 2 ^ k := by omega
      have ht2 : t / 2 < 2 ^ k := by omega
      simp only [mortonAux]
      have e1 : (u + v) % 2 = v % 2 := by omega
      have e2 : (s + t) % 2 = t % 2 := by omega
      have e3 : (u + v) / 2 = u / 2 + v / 2 := by omega
      have e4 : (s + t) / 2 = s / 2 + t / 2 := by omega
      rw [e1, e2, e3, e4, ih hud hsd hv2 ht2]
      omega

theorem mortonAux_dvd {k : Nat} : ∀ {f x y : Nat},
    2 ^ k ∣ x → 2 ^ k ∣ y → 4 ^ k ∣ mortonAux f x y := by
  induction k with
  | zero => intro f x y _ _; rw [pow_zero]; exact one_dvd _
  | succ k ih =>
    intro f x y hx hy
    match f with
    | 0 => exact Dvd.intro 0 rfl
    | f + 1 =>
      have hx2 : x % 2 = 0 := dvd_two_of_dvd_pow_succ hx
      have hy2 : y % 2 = 0 := dvd_two_of_dvd_pow_succ hy
      simp only [mortonAux]
      rw [hx2, hy2]
      simp only [Nat.zero_add, Nat.mul_zero, Nat.add_zero]
      rw [show (4:Nat) ^ (k + 1) = 4 * 4 ^ k by rw [pow_succ]; ring]
      exact Nat.mul_dvd_mul_left 4 (ih (dvd_pow_div_two hx) (dvd_pow_div_two hy))

theorem mortonAux_bits {j : Nat} : ∀ {f a b : Nat}, j < f → a < 2 → b < 2 →
    mortonAux f (a * 2 ^ j) (b * 2 ^ j) = (a + 2 * b) * 4 ^ j := by
  induction j with
  | zero =>
    intro f a b hf ha hb
    match f, hf with
    | f + 1, _ =>
      simp only [pow_zero, Nat.mul_one, mortonAux]
      rw [Nat.mod_eq_of_lt ha, Nat.mod_eq_of_lt hb, Nat.div_eq_of_lt ha,
        Nat.div_eq_of_lt hb, mortonAux_zero]
      omega
  | succ j ih =>
    intro f a b hf ha hb
    match f, hf with
    | f + 1, hf =>
      have h1 : a * 2 ^ (j + 1) = a * 2 ^ j * 2 := by rw [pow_succ]; ring
      have h2 : b * 2 ^ (j + 1) = b * 2 ^ j * 2 := by rw [pow_succ]; ring
      simp only [mortonAux, h1, h2, Nat.mul_mod_left,
        Nat.mul_div_cancel _ (by decide : 0 < 2)]
      rw [ih (by omega) ha hb]
      rw [show (4:Nat) ^ (j + 1) = 4 ^ j * 4 by rw [pow_succ]]
      ring

theorem mortonAux_inj {f : Nat} : ∀ {x1 y1 x2 y2 : Nat},
    x1 < 2 ^ f → y1 < 2 ^ f → x2 < 2 ^ f → y2 < 2 ^ f →
    mortonAux f x1 y1 = mortonAux f x2 y2 → x1 = x2 ∧ y1 = y2 := by
  induction f with
  | zero =>
    intro x1 y1 x2 y2 h1 h2 h3 h4 _
    rw [pow_zero] at h1 h2 h3 h4
    omega
  | succ f ih =>
    intro x1 y1 x2 y2 h1 h2 h3 h4 he
    have hp : (2:Nat) ^ (f + 1) = 2 * 2 ^ f := by rw [pow_succ]; ring
    rw [hp] at h1 h2 h3 h4
    have hb1 : x1 / 2 < 2 ^ f := by omega
    have hb2 : y1 / 2 < 2 ^ f := by omega
    have hb3 : x2 / 2 < 2 ^ f := by omega
    have hb4 : y2 / 2 < 2 ^ f := by omega
    simp only [mortonAux] at he
    have hrec : mortonAux f (x1 / 2) (y1 / 2) = mortonAux f (x2 / 2) (y2 / 2) := by
      omega
    obtain ⟨ex, ey⟩ := ih hb1 hb2 hb3 hb4 hrec
    constructor <;> omega

/-! ### Quadrant-level consequences -/

theorem is_valid_iff {q : Quadrant} : p4est_quadrant_is_valid q = true ↔
    q.level ≤ P4EST_MAXLEVEL ∧ q.x < 2 ^ P4EST_MAXLEVEL ∧
    q.y < 2 ^ P4EST_MAXLEVEL ∧ q.x % qlen q.level = 0 ∧
    q.y % qlen q.level = 0 := by
  unfold p4est_quadrant_is_valid
  simp [Bool.and_eq_true, and_assoc]

theorem is_equal_iff {q1 q2 : Quadrant} : p4est_quadrant_is_equal q1 q2 = true ↔
    q1.x = q2.x ∧ q1.y = q2.y ∧ q1.level = q2.level := by
  unfold p4est_quadrant_is_equal
  simp [Bool.and_eq_true, and_assoc]

theorem mortonInterleave_eq_aux {k : Nat} (hk : k ≤ 32) {x y : Nat}
    (hx : x < 2 ^ k) (hy : y < 2 ^ k) :
    mortonInterleave x y = mortonAux k x y :=
  mortonAux_fuel hk hx hy

theorem mortonInterleave_split {l : Nat} (x y : Nat) :
    mortonInterleave x y =
      mortonInterleave (coordTrunc l x) (coordTrunc l y) +
      mortonInterleave (x % qlen l) (y % qlen l) := by
  conv_lhs => rw [← coordTrunc_add_mod l x, ← coordTrunc_add_mod l y]
  exact mortonAux_split (k := P4EST_MAXLEVEL - l)
    (qlen_dvd_coordTrunc l x) (qlen_dvd_coordTrunc l y)
    (Nat.mod_lt x (qlen_pos l)) (Nat.mod_lt y (qlen_pos l))

theorem mortonInterleave_low_lt {l : Nat} (x y : Nat) :
    mortonInterleave (x % qlen l) (y % qlen l) < 4 ^ (P4EST_MAXLEVEL - l) := by
  have hk : P4EST_MAXLEVEL - l ≤ 32 := by
    have : P4EST_MAXLEVEL - l ≤ P4EST_MAXLEVEL := Nat.sub_le _ _
    unfold P4EST_MAXLEVEL at this ⊢
    omega
  have h1 : x % qlen l < 2 ^ (P4EST_MAXLEVEL - l) := Nat.mod_lt x (qlen_pos l)
  have h2 : y % qlen l < 2 ^ (P4EST_MAXLEVEL - l) := Nat.mod_lt y (qlen_pos l)
  rw [mortonInterleave_eq_aux hk h1 h2]
  exact mortonAux_lt h1 h2

theorem mortonInterleave_low_dvd {l lev x y : Nat} (hll : l ≤ lev)
    (hx : x % qlen lev = 0) (hy : y % qlen lev = 0) :
    4 ^ (P4EST_MAXLEVEL - lev) ∣ mortonInterleave (x % qlen l) (y % qlen l) := by
  have hdl : qlen lev ∣ qlen l := qlen_dvd hll
  have hx2 : qlen lev ∣ x % qlen l :=
    (Nat.dvd_mod_iff hdl).mpr (Nat.dvd_of_mod_eq_zero hx)
  have hy2 : qlen lev ∣ y % qlen l :=
    (Nat.dvd_mod_iff hdl).mpr (Nat.dvd_of_mod_eq_zero hy)
  exact mortonAux_dvd hx2 hy2

/-- The ancestor of `q` at level `l`: coordinates truncated to `l` bit
groups (a proof-level abbreviation used throughout the invariants). -/
def ancAt (l : Nat) (q : Quadrant) : Quadrant :=
  { q with x := coordTrunc l q.x, y := coordTrunc l q.y, level := l }

theorem mortonVal_ancAt (l : Nat) (q : Quadrant) :
    mortonVal (ancAt l q) = mortonInterleave (coordTrunc l q.x) (coordTrunc l q.y) := rfl

theorem mortonVal_ancAt_add (l : Nat) (q : Quadrant) :
    mortonVal q = mortonVal (ancAt l q) +
      mortonInterleave (q.x % qlen l) (q.y % qlen l) := by
  rw [mortonVal_ancAt]
  exact mortonInterleave_split q.x q.y

theorem dvd_add_le {d m N : Nat} (_hd : 0 < d) (h1 : d ∣ m) (h2 : m < N)
    (h3 : d ∣ N) : m + d ≤ N := by
  obtain ⟨a, rfl⟩ := h1
  obtain ⟨b, rfl⟩ := h3
  have hab : a < b := Nat.lt_of_mul_lt_mul_left h2
  calc d * a + d = d * (a + 1) := by ring
    _ ≤ d * b := Nat.mul_le_mul_left d (by omega)

/-- The extent of a valid quadrant is contained in the extent of its
ancestor at any coarser level. -/
theorem extent_sub {q : Quadrant} {l : Nat}
    (hv : p4est_quadrant_is_valid q = true) (hl : l ≤ q.level) :
    mortonVal (ancAt l q) ≤ mortonVal q ∧
    qendM q ≤ mortonVal (ancAt l q) + 4 ^ (P4EST_MAXLEVEL - l) := by
  obtain ⟨hlev, hx, hy, hcx, hcy⟩ := is_valid_iff.mp hv
  have hsplit := mortonVal_ancAt_add l q
  have hlow := mortonInterleave_low_lt (l := l) q.x q.y
  have hdvd := mortonInterleave_low_dvd hl hcx hcy
  have hstep : mortonInterleave (q.x % qlen l) (q.y % qlen l) +
      4 ^ (P4EST_MAXLEVEL - q.level) ≤ 4 ^ (P4EST_MAXLEVEL - l) :=
    dvd_add_le (Nat.pos_pow_of_pos _ (by decide)) hdvd hlow
      (pow_dvd_pow 4 (Nat.sub_le_sub_left hl _))
  constructor
  · omega
  · unfold qendM qsize
    omega

theorem childIdAt_lt (l : Nat) (q : Quadrant) : childIdAt l q < 4 := by
  unfold childIdAt
  omega

theorem mortonVal_childOf {c : Quadrant} (hx : c.x % qlen c.level = 0)
    (hy : c.y % qlen c.level = 0) (hl : c.level < P4EST_MAXLEVEL)
    {i : Nat} (hi : i < 4) :
    mortonVal (childOf c i) =
      mortonVal c + i * 4 ^ (P4EST_MAXLEVEL - (c.level + 1)) := by
  set j := P4EST_MAXLEVEL - (c.level + 1) with hj
  have hk : P4EST_MAXLEVEL - c.level = j + 1 := by omega
  have hdx : 2 ^ (j + 1) ∣ c.x := by
    rw [← hk]
    exact Nat.dvd_of_mod_eq_zero hx
  have hdy : 2 ^ (j + 1) ∣ c.y := by
    rw [← hk]
    exact Nat.dvd_of_mod_eq_zero hy
  have hq1 : qlen (c.level + 1) = 2 ^ j := rfl
  have hA : (0:Nat) < 2 ^ j := Nat.pos_pow_of_pos _ (by decide)
  have hpp : (2:Nat) ^ (j + 1) = 2 ^ j * 2 := pow_succ 2 j
  have hvx : i % 2 * qlen (c.level + 1) < 2 ^ (j + 1) := by
    rw [hq1, hpp]
    have h1 : i % 2 * 2 ^ j ≤ 1 * 2 ^ j :=
      Nat.mul_le_mul_right _ (by omega)
    omega
  have hvy : i / 2 % 2 * qlen (c.level + 1) < 2 ^ (j + 1) := by
    rw [hq1, hpp]
    have h1 : i / 2 % 2 * 2 ^ j ≤ 1 * 2 ^ j :=
      Nat.mul_le_mul_right _ (by omega)
    omega
  have hjf : j < 32 := by
    have : j ≤ P4EST_MAXLEVEL := by omega
    unfold P4EST_MAXLEVEL at this
    omega
  show mortonAux 32 (c.x + i % 2 * qlen (c.level + 1))
      (c.y + i / 2 % 2 * qlen (c.level + 1)) = _
  rw [mortonAux_split hdx hdy hvx hvy, hq1]
  have hbits := mortonAux_bits (f := 32) (a := i % 2) (b := i / 2 % 2) (j := j)
    hjf (by omega) (by omega)
  rw [hbits]
  have hscalar : i % 2 + 2 * (i / 2 % 2) = i := by omega
  rw [hscalar]
  rfl

theorem qsize_childOf (c : Quadrant) (i : Nat) :
    qsize (childOf c i) = 4 ^ (P4EST_MAXLEVEL - (c.level + 1)) := rfl

theorem qsize_split {c : Quadrant} (hl : c.level < P4EST_MAXLEVEL) :
    qsize c = 4 * 4 ^ (P4EST_MAXLEVEL - (c.level + 1)) := by
  unfold qsize
  rw [show P4EST_MAXLEVEL - c.level = (P4EST_MAXLEVEL - (c.level + 1)) + 1 by omega,
    pow_succ]
  ring

theorem childOf_containing {q c : Quadrant} (hcx : c.x = coordTrunc c.level q.x)
    (hcy : c.y = coordTrunc c.level q.y) (hl : c.level < P4EST_MAXLEVEL) :
    (childOf c (childIdAt (c.level + 1) q)).x = coordTrunc (c.level + 1) q.x ∧
    (childOf c (childIdAt (c.level + 1) q)).y = coordTrunc (c.level + 1) q.y := by
  unfold childOf childIdAt
  set xb := q.x / qlen (c.level + 1) % 2 with hxb
  set yb := q.y / qlen (c.level + 1) % 2 with hyb
  have e1 : (xb + 2 * yb) % 2 = xb := by omega
  have e2 : (xb + 2 * yb) / 2 % 2 = yb := by omega
  constructor
  · show c.x + (xb + 2 * yb) % 2 * qlen (c.level + 1) = _
    rw [e1, hcx, coordTrunc_step hl]
  · show c.y + (xb + 2 * yb) / 2 % 2 * qlen (c.level + 1) = _
    rw [e2, hcy, coordTrunc_step hl]

theorem compare_neg_iff {q1 q2 : Quadrant} :
    p4est_quadrant_compare q1 q2 < 0 ↔
    (mortonVal q1 < mortonVal q2 ∨
      (mortonVal q1 = mortonVal q2 ∧ q1.level < q2.level)) := by
  unfold p4est_quadrant_compare
  by_cases h : mortonVal q1 = mortonVal q2
  · simp [h]
  · simp [h]

/-! ### Bit-length and divergence-level machinery -/

theorem bitLenAux_le_iff {f : Nat} : ∀ {n k : Nat}, n < 2 ^ f →
    (bitLenAux f n ≤ k ↔ n < 2 ^ k) := by
  induction f with
  | zero =>
    intro n k hn
    rw [pow_zero] at hn
    have hn0 : n = 0 := by omega
    subst hn0
    simp [bitLenAux, Nat.pos_pow_of_pos k (by decide : 0 < 2)]
  | succ f ih =>
    intro n k hn
    by_cases h0 : n = 0
    · subst h0
      simp [bitLenAux, Nat.pos_pow_of_pos k (by decide : 0 < 2)]
    · simp only [bitLenAux, if_neg h0]
      match k with
      | 0 =>
        rw [pow_zero]
        constructor
        · omega
        · omega
      | k + 1 =>
        have hhalf : n / 2 < 2 ^ f := by
          rw [show (2:Nat) ^ (f + 1) = 2 ^ f * 2 from pow_succ 2 f] at hn
          omega
        rw [Nat.add_le_add_iff_right, ih hhalf,
          show (2:Nat) ^ (k + 1) = 2 ^ k * 2 from pow_succ 2 k]
        omega

theorem bitLength_le_iff {n k : Nat} (hn : n < 2 ^ 64) :
    bitLength n ≤ k ↔ n < 2 ^ k :=
  bitLenAux_le_iff hn

theorem div_pow_eq_iff_xor_lt {k x1 x2 : Nat} :
    x1 / 2 ^ k = x2 / 2 ^ k ↔ x1 ^^^ x2 < 2 ^ k := by
  constructor
  · intro h
    by_contra hc
    push_neg at hc
    obtain ⟨i, hik, hbit⟩ := Nat.ge_two_pow_implies_high_bit_true hc
    rw [Nat.testBit_xor] at hbit
    have h1 : x1 >>> k = x2 >>> k := by
      rw [Nat.shiftRight_eq_div_pow, Nat.shiftRight_eq_div_pow, h]
    have h2 := congrArg (fun z => z.testBit (i - k)) h1
    simp only [Nat.testBit_shiftRight] at h2
    rw [Nat.add_sub_cancel' hik] at h2
    rw [h2] at hbit
    simp at hbit
  · intro h
    have hsh : x1 >>> k = x2 >>> k := by
      apply Nat.eq_of_testBit_eq
      intro j
      simp only [Nat.testBit_shiftRight]
      have hb : (x1 ^^^ x2).testBit (k + j) = false :=
        Nat.testBit_lt_two_pow
          (lt_of_lt_of_le h (Nat.pow_le_pow_right (by decide) (by omega)))
      rw [Nat.testBit_xor] at hb
      simpa using hb
    rw [Nat.shiftRight_eq_div_pow, Nat.shiftRight_eq_div_pow] at hsh
    exact hsh

theorem or_lt_iff {a b n : Nat} : a ||| b < 2 ^ n ↔ a < 2 ^ n ∧ b < 2 ^ n := by
  constructor
  · intro h
    constructor
    · by_contra hc
      push_neg at hc
      obtain ⟨i, hik, hbit⟩ := Nat.ge_two_pow_implies_high_bit_true hc
      have : (a ||| b).testBit i = true := by
        rw [Nat.testBit_or, hbit]
        rfl
      have hge := Nat.testBit_implies_ge this
      have : (2:Nat) ^ n ≤ 2 ^ i := Nat.pow_le_pow_right (by decide) hik
      omega
    · by_contra hc
      push_neg at hc
      obtain ⟨i, hik, hbit⟩ := Nat.ge_two_pow_implies_high_bit_true hc
      have : (a ||| b).testBit i = true := by
        rw [Nat.testBit_or, hbit]
        simp
      have hge := Nat.testBit_implies_ge this
      have : (2:Nat) ^ n ≤ 2 ^ i := Nat.pow_le_pow_right (by decide) hik
      omega
  · intro ⟨h1, h2⟩
    exact Nat.or_lt_two_pow h1 h2

theorem coordTrunc_eq_iff_div {L x1 x2 : Nat} :
    coordTrunc L x1 = coordTrunc L x2 ↔ x1 / qlen L = x2 / qlen L := by
  unfold coordTrunc
  constructor
  · intro h
    exact Nat.eq_of_mul_eq_mul_right (qlen_pos L) h
  · intro h
    rw [h]

theorem prefix_agree_iff {L x1 x2 : Nat} :
    coordTrunc L x1 = coordTrunc L x2 ↔ x1 ^^^ x2 < qlen L := by
  rw [coordTrunc_eq_iff_div]
  exact div_pow_eq_iff_xor_lt

theorem bool_eq_of_iff {a b : Bool} (h : a = true ↔ b = true) : a = b := by
  cases a <;> cases b <;> simp_all

theorem quadrant_ext {a b : Quadrant} (hx : a.x = b.x) (hy : a.y = b.y)
    (hl : a.level = b.level) (hu : a.user_data = b.user_data) : a = b := by
  cases a
  cases b
  simp_all

theorem parentQ_x (q : Quadrant) : (parentQ q).x = coordTrunc (q.level - 1) q.x := rfl

theorem parentQ_y (q : Quadrant) : (parentQ q).y = coordTrunc (q.level - 1) q.y := rfl

theorem parentQ_level (q : Quadrant) : (parentQ q).level = q.level - 1 := rfl

theorem parentQ_user_data (q : Quadrant) : (parentQ q).user_data = q.user_data := rfl

theorem sibling_fast_slow (q1 q2 : Quadrant) :
    p4est_quadrant_is_sibling q1 q2 = p4est_quadrant_is_sibling_D q1 q2 := by
  apply bool_eq_of_iff
  have hL : p4est_quadrant_is_sibling q1 q2 = true ↔
      (q1.level = q2.level ∧ q1.level ≠ 0 ∧ (q1.x ≠ q2.x ∨ q1.y ≠ q2.y) ∧
       coordTrunc (q1.level - 1) q1.x = coordTrunc (q2.level - 1) q2.x ∧
       coordTrunc (q1.level - 1) q1.y = coordTrunc (q2.level - 1) q2.y) := by
    unfold p4est_quadrant_is_sibling
    simp [Bool.and_eq_true, Bool.or_eq_true, and_assoc]
  have hR : p4est_quadrant_is_sibling_D q1 q2 = true ↔
      (¬(q1.x = q2.x ∧ q1.y = q2.y ∧ q1.level = q2.level) ∧
       ¬(q1.level = 0 ∨ q2.level = 0) ∧
       coordTrunc (q1.level - 1) q1.x = coordTrunc (q2.level - 1) q2.x ∧
       coordTrunc (q1.level - 1) q1.y = coordTrunc (q2.level - 1) q2.y ∧
       q1.level - 1 = q2.level - 1) := by
    unfold p4est_quadrant_is_sibling_D
    split_ifs with h1 h2
    · simp only [false_iff]
      intro hc
      exact hc.1 (is_equal_iff.mp h1)
    · simp only [false_iff]
      intro hc
      exact hc.2.1 h2
    · rw [is_equal_iff]
      simp only [parentQ_x, parentQ_y, parentQ_level]
      constructor
      · intro ⟨ha, hb, hc⟩
        exact ⟨fun hc2 => h1 (is_equal_iff.mpr hc2), h2, ha, hb, hc⟩
      · intro ⟨_, _, ha, hb, hc⟩
        exact ⟨ha, hb, hc⟩
  rw [hL, hR]
  constructor
  · intro ⟨hl, hl0, hxy, hcx, hcy⟩
    refine ⟨?_, ?_, hcx, hcy, by omega⟩
    · intro ⟨ex, ey, _⟩
      rcases hxy with h | h
      · exact h ex
      · exact h ey
    · omega
  · intro ⟨hne, h0, hcx, hcy, hl1⟩
    have hll : q1.level = q2.level := by omega
    refine ⟨hll, by omega, ?_, hcx, hcy⟩
    by_cases hx : q1.x = q2.x
    · right
      intro hy
      exact hne ⟨hx, hy, hll⟩
    · left
      exact hx

theorem parent_fast_slow (q r : Quadrant) :
    p4est_quadrant_is_parent q r = p4est_quadrant_is_parent_D q r := by
  apply bool_eq_of_iff
  have hL : p4est_quadrant_is_parent q r = true ↔
      (r.level = q.level + 1 ∧ coordTrunc q.level r.x = q.x ∧
       coordTrunc q.level r.y = q.y) := by
    unfold p4est_quadrant_is_parent
    simp [Bool.and_eq_true, and_assoc]
  have hR : p4est_quadrant_is_parent_D q r = true ↔
      (r.level ≠ 0 ∧ q.x = coordTrunc (r.level - 1) r.x ∧
       q.y = coordTrunc (r.level - 1) r.y ∧ q.level = r.level - 1) := by
    unfold p4est_quadrant_is_parent_D
    split_ifs with h1
    · simp only [false_iff]
      intro hc
      exact hc.1 h1
    · rw [is_equal_iff]
      simp only [parentQ_x, parentQ_y, parentQ_level]
      constructor
      · intro ⟨ha, hb, hc⟩
        exact ⟨h1, ha, hb, hc⟩
      · intro ⟨_, ha, hb, hc⟩
        exact ⟨ha, hb, hc⟩
  rw [hL, hR]
  constructor
  · intro ⟨hl, hx, hy⟩
    have : r.level - 1 = q.level := by omega
    rw [this]
    exact ⟨by omega, hx.symm, hy.symm, by omega⟩
  · intro ⟨h0, hx, hy, hl⟩
    have : r.level - 1 = q.level := by omega
    rw [this] at hx hy
    exact ⟨by omega, hx.symm, hy.symm⟩

theorem parentIter_level (q : Quadrant) : ∀ k, (parentIter q k).level = q.level - k := by
  intro k
  induction k with
  | zero => rfl
  | succ k ih =>
    show (parentQ (parentIter q k)).level = _
    rw [parentQ_level, ih]
    omega

theorem parentIter_user_data (q : Quadrant) :
    ∀ k, (parentIter q k).user_data = q.user_data := by
  intro k
  induction k with
  | zero => rfl
  | succ k ih =>
    show (parentQ (parentIter q k)).user_data = _
    rw [parentQ_user_data, ih]

theorem parentIter_coords_pos {q : Quadrant} : ∀ {k : Nat}, 1 ≤ k → k ≤ q.level →
    (parentIter q k).x = coordTrunc (q.level - k) q.x ∧
    (parentIter q k).y = coordTrunc (q.level - k) q.y := by
  intro k
  induction k with
  | zero => omega
  | succ k ih =>
    intro _ hk
    by_cases hk0 : k = 0
    · subst hk0
      exact ⟨rfl, rfl⟩
    · obtain ⟨ex, ey⟩ := ih (by omega) (by omega)
      have hcomp : q.level - (k + 1) ≤ q.level - k := by omega
      have hlv : (parentIter q k).level = q.level - k := parentIter_level q k
      constructor
      · show (parentQ (parentIter q k)).x = _
        rw [parentQ_x, hlv, ex, coordTrunc_comp (by omega)]
        rfl
      · show (parentQ (parentIter q k)).y = _
        rw [parentQ_y, hlv, ey, coordTrunc_comp (by omega)]
        rfl

theorem ancestor_fast_slow (q r : Quadrant) :
    p4est_quadrant_is_ancestor q r = p4est_quadrant_is_ancestor_D q r := by
  apply bool_eq_of_iff
  have hL : p4est_quadrant_is_ancestor q r = true ↔
      (q.level < r.level ∧ coordTrunc q.level r.x = q.x ∧
       coordTrunc q.level r.y = q.y) := by
    unfold p4est_quadrant_is_ancestor
    simp [Bool.and_eq_true, and_assoc]
  rw [hL]
  unfold p4est_quadrant_is_ancestor_D
  split_ifs with h1
  · obtain ⟨ex, ey⟩ := parentIter_coords_pos (q := r)
      (k := r.level - q.level) (by omega) (by omega)
    rw [is_equal_iff, ex, ey, parentIter_level]
    have hls : r.level - (r.level - q.level) = q.level := by omega
    rw [hls]
    constructor
    · intro ⟨_, hx, hy⟩
      exact ⟨hx.symm, hy.symm, rfl⟩
    · intro ⟨hx, hy, _⟩
      exact ⟨h1, hx.symm, hy.symm⟩
  · constructor
    · intro hc
      exact absurd hc.1 h1
    · intro h
      simp at h

theorem ncaLevel_le_min (q1 q2 : Quadrant) :
    ncaLevel q1 q2 ≤ min q1.level q2.level := by
  unfold ncaLevel
  omega

theorem diverge_iff {q1 q2 : Quadrant} (hx1 : q1.x < 2 ^ P4EST_MAXLEVEL)
    (hy1 : q1.y < 2 ^ P4EST_MAXLEVEL) (hx2 : q2.x < 2 ^ P4EST_MAXLEVEL)
    (hy2 : q2.y < 2 ^ P4EST_MAXLEVEL) {L : Nat} (_hL : L ≤ P4EST_MAXLEVEL) :
    (coordTrunc L q1.x = coordTrunc L q2.x ∧
     coordTrunc L q1.y = coordTrunc L q2.y) ↔
    bitLength ((q1.x ^^^ q2.x) ||| (q1.y ^^^ q2.y)) ≤ P4EST_MAXLEVEL - L := by
  have helt : (q1.x ^^^ q2.x) ||| (q1.y ^^^ q2.y) < 2 ^ P4EST_MAXLEVEL :=
    Nat.or_lt_two_pow (Nat.xor_lt_two_pow hx1 hx2) (Nat.xor_lt_two_pow hy1 hy2)
  have he64 : (q1.x ^^^ q2.x) ||| (q1.y ^^^ q2.y) < 2 ^ 64 :=
    lt_of_lt_of_le helt
      (Nat.pow_le_pow_right (by decide) (by unfold P4EST_MAXLEVEL; omega))
  rw [prefix_agree_iff, prefix_agree_iff, bitLength_le_iff he64]
  exact (or_lt_iff (n := P4EST_MAXLEVEL - L)).symm

theorem ncaLevel_agree {q1 q2 : Quadrant}
    (hv1 : p4est_quadrant_is_valid q1 = true)
    (hv2 : p4est_quadrant_is_valid q2 = true) :
    coordTrunc (ncaLevel q1 q2) q1.x = coordTrunc (ncaLevel q1 q2) q2.x ∧
    coordTrunc (ncaLevel q1 q2) q1.y = coordTrunc (ncaLevel q1 q2) q2.y := by
  obtain ⟨hl1, hx1, hy1, _, _⟩ := is_valid_iff.mp hv1
  obtain ⟨hl2, hx2, hy2, _, _⟩ := is_valid_iff.mp hv2
  have hLle : ncaLevel q1 q2 ≤ q1.level :=
    le_trans (ncaLevel_le_min q1 q2) (min_le_left _ _)
  have hLM : ncaLevel q1 q2 ≤ P4EST_MAXLEVEL := le_trans hLle hl1
  have helt : (q1.x ^^^ q2.x) ||| (q1.y ^^^ q2.y) < 2 ^ P4EST_MAXLEVEL :=
    Nat.or_lt_two_pow (Nat.xor_lt_two_pow hx1 hx2) (Nat.xor_lt_two_pow hy1 hy2)
  have he64 : (q1.x ^^^ q2.x) ||| (q1.y ^^^ q2.y) < 2 ^ 64 :=
    lt_of_lt_of_le helt
      (Nat.pow_le_pow_right (by decide) (by unfold P4EST_MAXLEVEL; omega))
  have hB : bitLength ((q1.x ^^^ q2.x) ||| (q1.y ^^^ q2.y)) ≤ P4EST_MAXLEVEL :=
    (bitLength_le_iff he64).mpr helt
  have hkey : bitLength ((q1.x ^^^ q2.x) ||| (q1.y ^^^ q2.y)) ≤
      P4EST_MAXLEVEL - ncaLevel q1 q2 := by
    have hmin : ncaLevel q1 q2 ≤
        P4EST_MAXLEVEL - bitLength ((q1.x ^^^ q2.x) ||| (q1.y ^^^ q2.y)) := by
      unfold ncaLevel
      omega
    omega
  exact (diverge_iff hx1 hy1 hx2 hy2 hLM).mpr hkey

theorem ncaLevel_maximal {q1 q2 : Quadrant}
    (hv1 : p4est_quadrant_is_valid q1 = true)
    (hv2 : p4est_quadrant_is_valid q2 = true) {L : Nat}
    (h1 : L ≤ q1.level) (h2 : L ≤ q2.level)
    (hax : coordTrunc L q1.x = coordTrunc L q2.x)
    (hay : coordTrunc L q1.y = coordTrunc L q2.y) : L ≤ ncaLevel q1 q2 := by
  obtain ⟨hl1, hx1, hy1, _, _⟩ := is_valid_iff.mp hv1
  obtain ⟨hl2, hx2, hy2, _, _⟩ := is_valid_iff.mp hv2
  have hLM : L ≤ P4EST_MAXLEVEL := le_trans h1 hl1
  have hkey := (diverge_iff hx1 hy1 hx2 hy2 hLM).mp ⟨hax, hay⟩
  unfold ncaLevel
  omega

theorem parentIter_coords {q : Quadrant} (hcx : q.x % qlen q.level = 0)
    (hcy : q.y % qlen q.level = 0) {k : Nat} (hk : k ≤ q.level) :
    (parentIter q k).x = coordTrunc (q.level - k) q.x ∧
    (parentIter q k).y = coordTrunc (q.level - k) q.y := by
  match k with
  | 0 =>
    exact ⟨(coordTrunc_eq_self hcx).symm, (coordTrunc_eq_self hcy).symm⟩
  | k + 1 =>
    exact parentIter_coords_pos (by omega) hk

theorem ncaWalk_correct {q1 q2 : Quadrant}
    (hv1 : p4est_quadrant_is_valid q1 = true)
    (hv2 : p4est_quadrant_is_valid q2 = true) :
    ∀ m : Nat, ncaLevel q1 q2 ≤ m → m ≤ q1.level → m ≤ q2.level →
    ncaWalk (m + 1) (parentIter q1 (q1.level - m)) (parentIter q2 (q2.level - m)) =
      ⟨coordTrunc (ncaLevel q1 q2) q1.x, coordTrunc (ncaLevel q1 q2) q1.y,
       ncaLevel q1 q2, q1.user_data⟩ := by
  obtain ⟨_, _, _, hcx1, hcy1⟩ := is_valid_iff.mp hv1
  obtain ⟨_, _, _, hcx2, hcy2⟩ := is_valid_iff.mp hv2
  intro m
  induction m with
  | zero =>
    intro hT hm1 hm2
    have hT0 : ncaLevel q1 q2 = 0 := by omega
    obtain ⟨hs1x, hs1y⟩ := parentIter_coords hcx1 hcy1 (k := q1.level - 0) (by omega)
    obtain ⟨hs2x, hs2y⟩ := parentIter_coords hcx2 hcy2 (k := q2.level - 0) (by omega)
    rw [show q1.level - (q1.level - 0) = 0 by omega] at hs1x hs1y
    rw [show q2.level - (q2.level - 0) = 0 by omega] at hs2x hs2y
    obtain ⟨hax, hay⟩ := ncaLevel_agree hv1 hv2
    rw [hT0] at hax hay
    show ncaWalk 1 _ _ = _
    unfold ncaWalk
    rw [if_pos ⟨by rw [hs1x, hs2x, hax], by rw [hs1y, hs2y, hay]⟩]
    refine quadrant_ext ?_ ?_ ?_ ?_
    · rw [hs1x, hT0]
    · rw [hs1y, hT0]
    · rw [parentIter_level]
      show q1.level - (q1.level - 0) = ncaLevel q1 q2
      omega
    · rw [parentIter_user_data]
  | succ m ih =>
    intro hT hm1 hm2
    obtain ⟨hs1x, hs1y⟩ :=
      parentIter_coords hcx1 hcy1 (k := q1.level - (m + 1)) (by omega)
    obtain ⟨hs2x, hs2y⟩ :=
      parentIter_coords hcx2 hcy2 (k := q2.level - (m + 1)) (by omega)
    rw [show q1.level - (q1.level - (m + 1)) = m + 1 by omega] at hs1x hs1y
    rw [show q2.level - (q2.level - (m + 1)) = m + 1 by omega] at hs2x hs2y
    by_cases hTm : ncaLevel q1 q2 = m + 1
    · obtain ⟨hax, hay⟩ := ncaLevel_agree hv1 hv2
      rw [hTm] at hax hay
      show ncaWalk (m + 1 + 1) _ _ = _
      unfold ncaWalk
      rw [if_pos ⟨by rw [hs1x, hs2x, hax], by rw [hs1y, hs2y, hay]⟩]
      refine quadrant_ext ?_ ?_ ?_ ?_
      · rw [hs1x, hTm]
      · rw [hs1y, hTm]
      · rw [parentIter_level]
        show q1.level - (q1.level - (m + 1)) = ncaLevel q1 q2
        omega
      · rw [parentIter_user_data]
    · have hcond : ¬((parentIter q1 (q1.level - (m + 1))).x =
          (parentIter q2 (q2.level - (m + 1))).x ∧
          (parentIter q1 (q1.level - (m + 1))).y =
          (parentIter q2 (q2.level - (m + 1))).y) := by
        intro ⟨hx, hy⟩
        rw [hs1x, hs2x] at hx
        rw [hs1y, hs2y] at hy
        have := ncaLevel_maximal hv1 hv2 (L := m + 1) (by omega) (by omega) hx hy
        omega
      show ncaWalk (m + 1 + 1) _ _ = _
      unfold ncaWalk
      rw [if_neg hcond]
      have e1 : parentQ (parentIter q1 (q1.level - (m + 1))) =
          parentIter q1 (q1.level - m) := by
        show parentIter q1 (q1.level - (m + 1) + 1) = _
        congr 1
        omega
      have e2 : parentQ (parentIter q2 (q2.level - (m + 1))) =
          parentIter q2 (q2.level - m) := by
        show parentIter q2 (q2.level - (m + 1) + 1) = _
        congr 1
        omega
      rw [e1, e2]
      exact ih (by omega) (by omega) (by omega)

theorem nca_fast_slow {q1 q2 : Quadrant}
    (hv1 : p4est_quadrant_is_valid q1 = true)
    (hv2 : p4est_quadrant_is_valid q2 = true) (r : Quadrant) :
    p4est_nearest_common_ancestor q1 q2 r =
      p4est_nearest_common_ancestor_D q1 q2 r := by
  have hw := ncaWalk_correct hv1 hv2 (min q1.level q2.level)
    (ncaLevel_le_min q1 q2) (min_le_left _ _) (min_le_right _ _)
  unfold p4est_nearest_common_ancestor_D
  simp only []
  rw [hw]
  rfl

/-! ### Tiling invariants for the region construction -/

theorem qsize_pos (q : Quadrant) : 0 < qsize q :=
  Nat.pos_pow_of_pos _ (by decide)

theorem coordTrunc_mod (l x : Nat) : coordTrunc l x % qlen l = 0 :=
  Nat.mul_mod_left _ _

theorem compare_lt_of_qendM_le {p r : Quadrant} (h : qendM p ≤ mortonVal r) :
    p4est_quadrant_compare p r < 0 := by
  apply compare_neg_iff.mpr
  left
  have := qsize_pos p
  unfold qendM at h
  omega

theorem tiles_le : ∀ {L : List Quadrant} {lo hi : Nat}, tiles L lo hi → lo ≤ hi := by
  intro L
  induction L with
  | nil => intro lo hi h; exact le_of_eq h
  | cons e rest ih =>
    intro lo hi h
    obtain ⟨he, ht⟩ := h
    have h2 := ih ht
    have := qsize_pos e
    unfold qendM at h2
    omega

theorem tiles_append : ∀ {L1 L2 : List Quadrant} {lo hi : Nat} (mid : Nat),
    tiles L1 lo mid → tiles L2 mid hi → tiles (L1 ++ L2) lo hi := by
  intro L1
  induction L1 with
  | nil =>
    intro L2 lo hi mid h1 h2
    obtain rfl : lo = mid := h1
    exact h2
  | cons e rest ih =>
    intro L2 lo hi mid h1 h2
    obtain ⟨he, ht⟩ := h1
    exact ⟨he, ih mid ht h2⟩

theorem tiles_mem : ∀ {L : List Quadrant} {lo hi : Nat}, tiles L lo hi →
    ∀ e ∈ L, lo ≤ mortonVal e ∧ qendM e ≤ hi := by
  intro L
  induction L with
  | nil => intro lo hi _ e he; cases he
  | cons a rest ih =>
    intro lo hi h e he
    obtain ⟨ha, ht⟩ := h
    rcases List.mem_cons.mp he with rfl | hmem
    · exact ⟨le_of_eq ha.symm, tiles_le ht⟩
    · have h2 := ih ht e hmem
      have := qsize_pos a
      unfold qendM at h2 ⊢
      omega

theorem tiles_chain : ∀ {L : List Quadrant} {lo hi : Nat}, tiles L lo hi →
    List.Chain' (fun a b => p4est_quadrant_compare a b < 0) L := by
  intro L
  induction L with
  | nil => intro lo hi _; exact List.chain'_nil
  | cons a rest ih =>
    intro lo hi h
    obtain ⟨ha, ht⟩ := h
    cases rest with
    | nil => exact List.chain'_singleton a
    | cons b rest2 =>
      have hb := ht.1
      rw [List.chain'_cons]
      exact ⟨compare_lt_of_qendM_le (le_of_eq hb.symm), ih ht⟩

theorem tiles_range_map {c : Quadrant} (hx : c.x % qlen c.level = 0)
    (hy : c.y % qlen c.level = 0) (hl : c.level < P4EST_MAXLEVEL) :
    ∀ (n lo : Nat), lo + n ≤ 4 →
    tiles ((List.range' lo n).map (childOf c))
      (mortonVal c + lo * 4 ^ (P4EST_MAXLEVEL - (c.level + 1)))
      (mortonVal c + (lo + n) * 4 ^ (P4EST_MAXLEVEL - (c.level + 1))) := by
  intro n
  induction n with
  | zero =>
    intro lo _
    show mortonVal c + lo * 4 ^ (P4EST_MAXLEVEL - (c.level + 1)) =
      mortonVal c + (lo + 0) * 4 ^ (P4EST_MAXLEVEL - (c.level + 1))
    simp
  | succ n ih =>
    intro lo hlo
    rw [List.range'_succ, List.map_cons]
    refine ⟨(mortonVal_childOf hx hy hl (by omega)), ?_⟩
    have hq : qendM (childOf c lo) =
        mortonVal c + (lo + 1) * 4 ^ (P4EST_MAXLEVEL - (c.level + 1)) := by
      unfold qendM
      rw [mortonVal_childOf hx hy hl (by omega), qsize_childOf]
      ring
    rw [hq]
    have := ih (lo + 1) (by omega)
    rw [show lo + 1 + n = lo + (n + 1) by omega] at this
    exact this

theorem tiles_childSeg {c : Quadrant} (hx : c.x % qlen c.level = 0)
    (hy : c.y % qlen c.level = 0) (hl : c.level < P4EST_MAXLEVEL)
    (lo hi : Nat) (hlohi : lo ≤ hi) (hhi : hi ≤ 4) :
    tiles (childSeg c lo hi)
      (mortonVal c + lo * 4 ^ (P4EST_MAXLEVEL - (c.level + 1)))
      (mortonVal c + hi * 4 ^ (P4EST_MAXLEVEL - (c.level + 1))) := by
  have := tiles_range_map hx hy hl (hi - lo) lo (by omega)
  rw [show lo + (hi - lo) = hi by omega] at this
  exact this

theorem childSeg_level {c : Quadrant} {lo hi : Nat} :
    ∀ e ∈ childSeg c lo hi, e.level = c.level + 1 := by
  intro e he
  unfold childSeg at he
  obtain ⟨i, _, rfl⟩ := List.mem_map.mp he
  rfl

theorem tiles_fillAfter {q : Quadrant} (hv : p4est_quadrant_is_valid q = true) :
    ∀ (f : Nat) (c : Quadrant), c.level + f = q.level →
    c.x = coordTrunc c.level q.x → c.y = coordTrunc c.level q.y →
    tiles (fillAfterGo f q c) (qendM q) (qendM c) := by
  obtain ⟨hlev, hxb, hyb, hqcx, hqcy⟩ := is_valid_iff.mp hv
  intro f
  induction f with
  | zero =>
    intro c hf hx hy
    show qendM q = qendM c
    have hcl : c.level = q.level := by omega
    have hxx : c.x = q.x := by
      rw [hx, hcl]
      exact coordTrunc_eq_self hqcx
    have hyy : c.y = q.y := by
      rw [hy, hcl]
      exact coordTrunc_eq_self hqcy
    unfold qendM qsize mortonVal
    rw [hxx, hyy, hcl]
  | succ f ih =>
    intro c hf hx hy
    have hclev : c.level < P4EST_MAXLEVEL := by omega
    have hmx : c.x % qlen c.level = 0 := by
      rw [hx]
      exact coordTrunc_mod _ _
    have hmy : c.y % qlen c.level = 0 := by
      rw [hy]
      exact coordTrunc_mod _ _
    have hi4 : childIdAt (c.level + 1) q < 4 := childIdAt_lt _ _
    obtain ⟨hc'x, hc'y⟩ := childOf_containing hx hy hclev
    have hih := ih (childOf c (childIdAt (c.level + 1) q))
      (by show c.level + 1 + f = q.level; omega) hc'x hc'y
    have hMc' := mortonVal_childOf hmx hmy hclev hi4
    have hqend_c' : qendM (childOf c (childIdAt (c.level + 1) q)) =
        mortonVal c + (childIdAt (c.level + 1) q + 1) *
          4 ^ (P4EST_MAXLEVEL - (c.level + 1)) := by
      unfold qendM
      rw [hMc', qsize_childOf]
      ring
    have hseg := tiles_childSeg hmx hmy hclev
      (childIdAt (c.level + 1) q + 1) 4 (by omega) (le_refl 4)
    have hqend_c : qendM c =
        mortonVal c + 4 * 4 ^ (P4EST_MAXLEVEL - (c.level + 1)) := by
      unfold qendM
      rw [qsize_split hclev]
    show tiles (fillAfterGo f q (childOf c (childIdAt (c.level + 1) q)) ++
        childSeg c (childIdAt (c.level + 1) q + 1) 4) (qendM q) (qendM c)
    apply tiles_append (mortonVal c + (childIdAt (c.level + 1) q + 1) *
      4 ^ (P4EST_MAXLEVEL - (c.level + 1)))
    · rw [← hqend_c']
      exact hih
    · rw [hqend_c]
      exact hseg

theorem tiles_fillBefore {q : Quadrant} (hv : p4est_quadrant_is_valid q = true) :
    ∀ (f : Nat) (c : Quadrant), c.level + f = q.level →
    c.x = coordTrunc c.level q.x → c.y = coordTrunc c.level q.y →
    tiles (fillBeforeGo f q c) (mortonVal c) (mortonVal q) := by
  obtain ⟨hlev, hxb, hyb, hqcx, hqcy⟩ := is_valid_iff.mp hv
  intro f
  induction f with
  | zero =>
    intro c hf hx hy
    show mortonVal c = mortonVal q
    have hcl : c.level = q.level := by omega
    have hxx : c.x = q.x := by
      rw [hx, hcl]
      exact coordTrunc_eq_self hqcx
    have hyy : c.y = q.y := by
      rw [hy, hcl]
      exact coordTrunc_eq_self hqcy
    unfold mortonVal
    rw [hxx, hyy]
  | succ f ih =>
    intro c hf hx hy
    have hclev : c.level < P4EST_MAXLEVEL := by omega
    have hmx : c.x % qlen c.level = 0 := by
      rw [hx]
      exact coordTrunc_mod _ _
    have hmy : c.y % qlen c.level = 0 := by
      rw [hy]
      exact coordTrunc_mod _ _
    have hi4 : childIdAt (c.level + 1) q < 4 := childIdAt_lt _ _
    obtain ⟨hc'x, hc'y⟩ := childOf_containing hx hy hclev
    have hih := ih (childOf c (childIdAt (c.level + 1) q))
      (by show c.level + 1 + f = q.level; omega) hc'x hc'y
    have hMc' := mortonVal_childOf hmx hmy hclev hi4
    have hseg := tiles_childSeg hmx hmy hclev
      0 (childIdAt (c.level + 1) q) (by omega) (by omega)
    show tiles (childSeg c 0 (childIdAt (c.level + 1) q) ++
        fillBeforeGo f q (childOf c (childIdAt (c.level + 1) q)))
      (mortonVal c) (mortonVal q)
    have h0 : mortonVal c + 0 * 4 ^ (P4EST_MAXLEVEL - (c.level + 1)) =
        mortonVal c := by ring
    rw [h0] at hseg
    apply tiles_append (mortonVal c + childIdAt (c.level + 1) q *
      4 ^ (P4EST_MAXLEVEL - (c.level + 1)))
    · exact hseg
    · rw [← hMc']
      exact hih

theorem fillBefore_level : ∀ (f : Nat) (q c : Quadrant),
    ∀ e ∈ fillBeforeGo f q c, c.level < e.level := by
  intro f
  induction f with
  | zero => intro q c e he; cases he
  | succ f ih =>
    intro q c e he
    have he2 : e ∈ childSeg c 0 (childIdAt (c.level + 1) q) ++
        fillBeforeGo f q (childOf c (childIdAt (c.level + 1) q)) := he
    rcases List.mem_append.mp he2 with h | h
    · rw [childSeg_level e h]
      omega
    · have := ih q (childOf c (childIdAt (c.level + 1) q)) e h
      have hcl : (childOf c (childIdAt (c.level + 1) q)).level = c.level + 1 := rfl
      omega

theorem interior_facts_body {q1 q2 a : Quadrant}
    (hv1 : p4est_quadrant_is_valid q1 = true)
    (hv2 : p4est_quadrant_is_valid q2 = true)
    (hlt : p4est_quadrant_compare q1 q2 < 0)
    (halev : a.level = ncaLevel q1 q2)
    (hax : a.x = coordTrunc (ncaLevel q1 q2) q1.x)
    (hay : a.y = coordTrunc (ncaLevel q1 q2) q1.y) :
    List.Chain' (fun u v => p4est_quadrant_compare u v < 0)
      (completeRegionBody q1 q2 a) ∧
    (∀ e ∈ completeRegionBody q1 q2 a, p4est_quadrant_compare q1 e < 0) ∧
    (∀ e ∈ completeRegionBody q1 q2 a, p4est_quadrant_compare e q2 < 0) := by
  obtain ⟨hl1, hx1, hy1, hcx1, hcy1⟩ := is_valid_iff.mp hv1
  obtain ⟨hl2, hx2, hy2, hcx2, hcy2⟩ := is_valid_iff.mp hv2
  obtain ⟨hagx, hagy⟩ := ncaLevel_agree hv1 hv2
  have hT1 : ncaLevel q1 q2 ≤ q1.level :=
    le_trans (ncaLevel_le_min _ _) (min_le_left _ _)
  have hT2 : ncaLevel q1 q2 ≤ q2.level :=
    le_trans (ncaLevel_le_min _ _) (min_le_right _ _)
  have hax1 : a.x = coordTrunc a.level q1.x := by rw [halev, hax]
  have hay1 : a.y = coordTrunc a.level q1.y := by rw [halev, hay]
  have hax2 : a.x = coordTrunc a.level q2.x := by
    rw [halev, hax]
    exact hagx
  have hay2 : a.y = coordTrunc a.level q2.y := by
    rw [halev, hay]
    exact hagy
  unfold completeRegionBody
  by_cases hA : p4est_quadrant_is_equal q1 a = true
  · rw [if_pos hA]
    obtain ⟨hq1x, hq1y, hq1lev⟩ := is_equal_iff.mp hA
    have hfb := tiles_fillBefore hv2 (q2.level - a.level) a (by omega) hax2 hay2
    have hMa : mortonVal a = mortonVal q1 := by
      unfold mortonVal
      rw [hq1x, hq1y]
    refine ⟨tiles_chain hfb, ?_, ?_⟩
    · intro e he
      have hb := tiles_mem hfb e he
      have hlev := fillBefore_level _ q2 a e he
      apply compare_neg_iff.mpr
      by_cases hme : mortonVal q1 = mortonVal e
      · right
        exact ⟨hme, by omega⟩
      · left
        omega
    · intro e he
      have hb := tiles_mem hfb e he
      apply compare_neg_iff.mpr
      left
      have hp := qsize_pos e
      unfold qendM at hb
      omega
  · rw [if_neg hA]
    by_cases hB : p4est_quadrant_is_equal q2 a = true
    · exfalso
      obtain ⟨hq2x, hq2y, hq2lev⟩ := is_equal_iff.mp hB
      have hanc : mortonVal (ancAt (ncaLevel q1 q2) q1) = mortonVal a := by
        rw [mortonVal_ancAt]
        unfold mortonVal
        rw [hax, hay]
      have hle := (extent_sub hv1 hT1).1
      have hMa2 : mortonVal q2 = mortonVal a := by
        unfold mortonVal
        rw [hq2x, hq2y]
      rcases compare_neg_iff.mp hlt with h | ⟨hm, hlv⟩
      · omega
      · omega
    · rw [if_neg hB]
      have hal1 : a.level < q1.level := by
        rcases Nat.lt_or_ge a.level q1.level with h | h
        · exact h
        · exfalso
          apply hA
          apply is_equal_iff.mpr
          have hleq : a.level = q1.level := by omega
          refine ⟨?_, ?_, hleq.symm⟩
          · rw [hax1, hleq, coordTrunc_eq_self hcx1]
          · rw [hay1, hleq, coordTrunc_eq_self hcy1]
      have hal2 : a.level < q2.level := by
        rcases Nat.lt_or_ge a.level q2.level with h | h
        · exact h
        · exfalso
          apply hB
          apply is_equal_iff.mpr
          have hleq : a.level = q2.level := by omega
          refine ⟨?_, ?_, hleq.symm⟩
          · rw [hax2, hleq, coordTrunc_eq_self hcx2]
          · rw [hay2, hleq, coordTrunc_eq_self hcy2]
      have haclev : a.level < P4EST_MAXLEVEL := by omega
      have hamx : a.x % qlen a.level = 0 := by
        rw [hax1]
        exact coordTrunc_mod _ _
      have hamy : a.y % qlen a.level = 0 := by
        rw [hay1]
        exact coordTrunc_mod _ _
      obtain ⟨hc1x, hc1y⟩ := childOf_containing hax1 hay1 haclev
      obtain ⟨hc2x, hc2y⟩ := childOf_containing hax2 hay2 haclev
      have hi1lt : childIdAt (a.level + 1) q1 < 4 := childIdAt_lt _ _
      have hi2lt : childIdAt (a.level + 1) q2 < 4 := childIdAt_lt _ _
      have hMc1 := mortonVal_childOf hamx hamy haclev hi1lt
      have hMc2 := mortonVal_childOf hamx hamy haclev hi2lt
      have hne : childIdAt (a.level + 1) q1 ≠ childIdAt (a.level + 1) q2 := by
        intro he
        have hx' : coordTrunc (a.level + 1) q1.x = coordTrunc (a.level + 1) q2.x := by
          rw [← hc1x, he, hc2x]
        have hy' : coordTrunc (a.level + 1) q1.y = coordTrunc (a.level + 1) q2.y := by
          rw [← hc1y, he, hc2y]
        have := ncaLevel_maximal hv1 hv2 (by omega) (by omega) hx' hy'
        omega
      have hP32 : (2:Nat) ^ P4EST_MAXLEVEL ≤ 2 ^ 32 :=
        Nat.pow_le_pow_right (by decide) (by unfold P4EST_MAXLEVEL; omega)
      have hMne : mortonVal q1 ≠ mortonVal q2 := by
        intro he
        obtain ⟨hxe, hye⟩ := mortonAux_inj (f := 32)
          (lt_of_lt_of_le hx1 hP32) (lt_of_lt_of_le hy1 hP32)
          (lt_of_lt_of_le hx2 hP32) (lt_of_lt_of_le hy2 hP32) he
        apply hne
        unfold childIdAt
        rw [hxe, hye]
      have hMlt : mortonVal q1 < mortonVal q2 := by
        rcases compare_neg_iff.mp hlt with h | ⟨hm, _⟩
        · exact h
        · exact absurd hm hMne
      have hsp1 := mortonVal_ancAt_add (a.level + 1) q1
      have hsp2 := mortonVal_ancAt_add (a.level + 1) q2
      have hanc1 : mortonVal (ancAt (a.level + 1) q1) =
          mortonVal (childOf a (childIdAt (a.level + 1) q1)) := by
        rw [mortonVal_ancAt]
        unfold mortonVal
        rw [hc1x, hc1y]
      have hanc2 : mortonVal (ancAt (a.level + 1) q2) =
          mortonVal (childOf a (childIdAt (a.level + 1) q2)) := by
        rw [mortonVal_ancAt]
        unfold mortonVal
        rw [hc2x, hc2y]
      have hlow1 := mortonInterleave_low_lt (l := a.level + 1) q1.x q1.y
      have hlow2 := mortonInterleave_low_lt (l := a.level + 1) q2.x q2.y
      have hi12 : childIdAt (a.level + 1) q1 < childIdAt (a.level + 1) q2 := by
        by_contra hcge
        push_neg at hcge
        have hstep : childIdAt (a.level + 1) q2 + 1 ≤ childIdAt (a.level + 1) q1 := by
          omega
        have hmul : (childIdAt (a.level + 1) q2 + 1) *
            4 ^ (P4EST_MAXLEVEL - (a.level + 1)) ≤
            childIdAt (a.level + 1) q1 * 4 ^ (P4EST_MAXLEVEL - (a.level + 1)) :=
          Nat.mul_le_mul_right _ hstep
        have hexp : (childIdAt (a.level + 1) q2 + 1) *
            4 ^ (P4EST_MAXLEVEL - (a.level + 1)) =
            childIdAt (a.level + 1) q2 * 4 ^ (P4EST_MAXLEVEL - (a.level + 1)) +
            4 ^ (P4EST_MAXLEVEL - (a.level + 1)) := by ring
        omega
      have hfa := tiles_fillAfter hv1 (q1.level - a.level - 1)
        (childOf a (childIdAt (a.level + 1) q1))
        (by show a.level + 1 + (q1.level - a.level - 1) = q1.level; omega)
        hc1x hc1y
      have hseg := tiles_childSeg hamx hamy haclev
        (childIdAt (a.level + 1) q1 + 1)
        (childIdAt (a.level + 1) q2) (by omega) (by omega)
      have hfb := tiles_fillBefore hv2 (q2.level - a.level - 1)
        (childOf a (childIdAt (a.level + 1) q2))
        (by show a.level + 1 + (q2.level - a.level - 1) = q2.level; omega)
        hc2x hc2y
      have hqe1 : qendM (childOf a (childIdAt (a.level + 1) q1)) =
          mortonVal a + (childIdAt (a.level + 1) q1 + 1) *
            4 ^ (P4EST_MAXLEVEL - (a.level + 1)) := by
        unfold qendM
        rw [hMc1, qsize_childOf]
        ring
      have hint : tiles
          (fillAfterGo (q1.level - a.level - 1) q1
              (childOf a (childIdAt (a.level + 1) q1))
            ++ childSeg a (childIdAt (a.level + 1) q1 + 1)
              (childIdAt (a.level + 1) q2)
            ++ fillBeforeGo (q2.level - a.level - 1) q2
              (childOf a (childIdAt (a.level + 1) q2)))
          (qendM q1) (mortonVal q2) := by
        apply tiles_append (mortonVal a + childIdAt (a.level + 1) q2 *
          4 ^ (P4EST_MAXLEVEL - (a.level + 1)))
        · apply tiles_append (mortonVal a +
            (childIdAt (a.level + 1) q1 + 1) *
            4 ^ (P4EST_MAXLEVEL - (a.level + 1)))
          · rw [← hqe1]
            exact hfa
          · exact hseg
        · rw [← hMc2]
          exact hfb
      refine ⟨tiles_chain hint, ?_, ?_⟩
      · intro e he
        have hb := tiles_mem hint e he
        apply compare_neg_iff.mpr
        left
        have hp := qsize_pos q1
        unfold qendM at hb
        omega
      · intro e he
        have hb := tiles_mem hint e he
        apply compare_neg_iff.mpr
        left
        have hp := qsize_pos e
        unfold qendM at hb
        omega

theorem interior_facts {q1 q2 : Quadrant}
    (hv1 : p4est_quadrant_is_valid q1 = true)
    (hv2 : p4est_quadrant_is_valid q2 = true)
    (hlt : p4est_quadrant_compare q1 q2 < 0) :
    List.Chain' (fun u v => p4est_quadrant_compare u v < 0)
      (completeRegionList q1 q2) ∧
    (∀ e ∈ completeRegionList q1 q2, p4est_quadrant_compare q1 e < 0) ∧
    (∀ e ∈ completeRegionList q1 q2, p4est_quadrant_compare e q2 < 0) :=
  interior_facts_body hv1 hv2 hlt rfl rfl rfl

theorem is_sorted_iff_chain : ∀ L : List Quadrant,
    p4est_tree_is_sorted L = true ↔
    List.Chain' (fun u v => p4est_quadrant_compare u v < 0) L := by
  intro L
  induction L with
  | nil => simp [p4est_tree_is_sorted]
  | cons q L ih =>
    cases L with
    | nil => simp [p4est_tree_is_sorted]
    | cons r rest =>
      show (decide (p4est_quadrant_compare q r < 0) &&
        p4est_tree_is_sorted (r :: rest)) = true ↔ _
      rw [Bool.and_eq_true, decide_eq_true_eq, ih, List.chain'_cons]

theorem sorted_assemble {q1 q2 : Quadrant} {I : List Quadrant}
    (hchain : List.Chain' (fun u v => p4est_quadrant_compare u v < 0) I)
    (h1 : ∀ e ∈ I, p4est_quadrant_compare q1 e < 0)
    (h2 : ∀ e ∈ I, p4est_quadrant_compare e q2 < 0)
    (h12 : p4est_quadrant_compare q1 q2 < 0) :
    ∀ inc1 inc2 : Bool,
    p4est_tree_is_sorted ((if inc1 then [q1] else []) ++ I ++
      (if inc2 then [q2] else [])) = true := by
  have hIq2 : List.Chain' (fun u v => p4est_quadrant_compare u v < 0)
      (I ++ [q2]) := by
    rw [List.chain'_append]
    refine ⟨hchain, List.chain'_singleton q2, ?_⟩
    intro x hx y hy
    have hxm : x ∈ I := List.mem_of_mem_getLast? hx
    have hyq : q2 = y := by simpa using hy
    subst hyq
    exact h2 x hxm
  intro inc1 inc2
  rw [is_sorted_iff_chain]
  cases inc1 <;> cases inc2
  · show List.Chain' (fun u v => p4est_quadrant_compare u v < 0) (I ++ [])
    rw [List.append_nil]
    exact hchain
  · show List.Chain' (fun u v => p4est_quadrant_compare u v < 0) (I ++ [q2])
    exact hIq2
  · show List.Chain' (fun u v => p4est_quadrant_compare u v < 0)
      (q1 :: (I ++ []))
    rw [List.append_nil, List.chain'_cons']
    exact ⟨fun y hy => h1 y (List.mem_of_mem_head? hy), hchain⟩
  · show List.Chain' (fun u v => p4est_quadrant_compare u v < 0)
      (q1 :: (I ++ [q2]))
    rw [List.chain'_cons']
    refine ⟨?_, hIq2⟩
    intro y hy
    cases I with
    | nil =>
      simp only [List.nil_append, List.head?_cons, Option.mem_some_iff] at hy
      subst hy
      exact h12
    | cons e rest =>
      simp only [List.cons_append, List.head?_cons, Option.mem_some_iff] at hy
      subst hy
      exact h1 e (by simp)

/-! ### Claims -/

/-- Claim C1: in 2D, the region construction called with q1 = the level-1
child of the root with child id 0, q2 = the level-1 child with child id 3,
and both inclusion flags set, on an initially empty tree, produces exactly
the four level-1 children of the root in child-id order 0,1,2,3, with no
quadrant at level 2 or deeper. -/
theorem claim_C1_region_concrete :
    p4est_quadrant_is_valid ⟨0, 0, 1, 0⟩ = true ∧
    p4est_quadrant_child_id ⟨0, 0, 1, 0⟩ = 0 ∧
    p4est_quadrant_is_valid ⟨2 ^ 29, 2 ^ 29, 1, 0⟩ = true ∧
    p4est_quadrant_child_id ⟨2 ^ 29, 2 ^ 29, 1, 0⟩ = 3 ∧
    p4est_complete_region ⟨0, 0, 1, 0⟩ true ⟨2 ^ 29, 2 ^ 29, 1, 0⟩ true [] =
      some [childOf ⟨0, 0, 0, 0⟩ 0, childOf ⟨0, 0, 0, 0⟩ 1,
            childOf ⟨0, 0, 0, 0⟩ 2, childOf ⟨0, 0, 0, 0⟩ 3] ∧
    (∀ e ∈ [childOf ⟨0, 0, 0, 0⟩ 0, childOf ⟨0, 0, 0, 0⟩ 1,
            childOf ⟨0, 0, 0, 0⟩ 2, childOf ⟨0, 0, 0, 0⟩ 3], e.level = 1) := by
  decide

/-- The four agreement statements of the fast/descriptive oracle pairs, at
one triple of arguments (`r` is the pre-state receiving the nearest common
ancestor). -/
def fastSlowAgree (q1 q2 r : Quadrant) : Prop :=
  p4est_quadrant_is_sibling q1 q2 = p4est_quadrant_is_sibling_D q1 q2 ∧
  p4est_quadrant_is_parent q1 q2 = p4est_quadrant_is_parent_D q1 q2 ∧
  p4est_quadrant_is_ancestor q1 q2 = p4est_quadrant_is_ancestor_D q1 q2 ∧
  p4est_nearest_common_ancestor q1 q2 r = p4est_nearest_common_ancestor_D q1 q2 r

/-- Claim C6: for every pair of valid quadrants the fast implementations
agree exactly with their descriptive oracle counterparts: is_sibling,
is_parent, is_ancestor, and the nearest common ancestor (the last producing
bit-for-bit identical result quadrants, for any pre-state `r`). -/
theorem claim_C6_fast_slow_agree (q1 q2 r : Quadrant)
    (hv1 : p4est_quadrant_is_valid q1 = true)
    (hv2 : p4est_quadrant_is_valid q2 = true) :
    fastSlowAgree q1 q2 r :=
  ⟨sibling_fast_slow q1 q2, parent_fast_slow q1 q2,
   ancestor_fast_slow q1 q2, nca_fast_slow hv1 hv2 r⟩

/-- Witness for C6: the agreement at a concrete valid pair. -/
theorem claim_C6_witness :
    p4est_quadrant_is_valid ⟨0, 0, 2, 0⟩ = true ∧
    p4est_quadrant_is_valid ⟨2 ^ 29, 2 ^ 29, 1, 0⟩ = true ∧
    fastSlowAgree ⟨0, 0, 2, 0⟩ ⟨2 ^ 29, 2 ^ 29, 1, 0⟩ ⟨5, 6, 7, 8⟩ :=
  ⟨by decide, by decide,
   claim_C6_fast_slow_agree ⟨0, 0, 2, 0⟩ ⟨2 ^ 29, 2 ^ 29, 1, 0⟩ ⟨5, 6, 7, 8⟩
     (by decide) (by decide)⟩

/-- Claim C7: calling the region construction with `q1` not strictly below
`q2` in the Morton ordering is surfaced as a defined failure (`none`), and
no partially populated quadrant sequence is produced: the empty input tree
yields no output tree at all. -/
theorem claim_C7_precondition_failure (q1 q2 : Quadrant) (inc1 inc2 : Bool)
    (tree : List Quadrant) (h : ¬ p4est_quadrant_compare q1 q2 < 0) :
    p4est_complete_region q1 inc1 q2 inc2 tree = none := by
  unfold p4est_complete_region
  rw [if_neg h]

/-- Witness for C7: the failure at the concrete call with `q1 = q2`. -/
theorem claim_C7_witness :
    ¬ p4est_quadrant_compare ⟨0, 0, 1, 0⟩ ⟨0, 0, 1, 0⟩ < 0 ∧
    p4est_complete_region ⟨0, 0, 1, 0⟩ true ⟨0, 0, 1, 0⟩ true [] = none :=
  ⟨by decide,
   claim_C7_precondition_failure ⟨0, 0, 1, 0⟩ ⟨0, 0, 1, 0⟩ true true []
     (by decide)⟩

theorem is_ancestor_iff {q r : Quadrant} :
    p4est_quadrant_is_ancestor q r = true ↔
    (q.level < r.level ∧ coordTrunc q.level r.x = q.x ∧
     coordTrunc q.level r.y = q.y) := by
  unfold p4est_quadrant_is_ancestor
  simp [Bool.and_eq_true, and_assoc]

/-- Claim C8: the ancestor relation is transitive: for valid quadrants at
pairwise distinct levels, if `a` is an ancestor of `b` and `b` is an
ancestor of `c` then `a` is an ancestor of `c`. -/
theorem claim_C8_ancestor_trans (a b c : Quadrant)
    (hva : p4est_quadrant_is_valid a = true)
    (hvb : p4est_quadrant_is_valid b = true)
    (hvc : p4est_quadrant_is_valid c = true)
    (hd1 : a.level ≠ b.level) (hd2 : b.level ≠ c.level) (hd3 : a.level ≠ c.level)
    (hab : p4est_quadrant_is_ancestor a b = true)
    (hbc : p4est_quadrant_is_ancestor b c = true) :
    p4est_quadrant_is_ancestor a c = true := by
  obtain ⟨hl1, hx1, hy1⟩ := is_ancestor_iff.mp hab
  obtain ⟨hl2, hx2, hy2⟩ := is_ancestor_iff.mp hbc
  apply is_ancestor_iff.mpr
  refine ⟨by omega, ?_, ?_⟩
  · calc coordTrunc a.level c.x
        = coordTrunc a.level (coordTrunc b.level c.x) :=
          (coordTrunc_comp (le_of_lt hl1) c.x).symm
      _ = coordTrunc a.level b.x := by rw [hx2]
      _ = a.x := hx1
  · calc coordTrunc a.level c.y
        = coordTrunc a.level (coordTrunc b.level c.y) :=
          (coordTrunc_comp (le_of_lt hl1) c.y).symm
      _ = coordTrunc a.level b.y := by rw [hy2]
      _ = a.y := hy1

/-- Witness for C8: transitivity at a concrete chain root, level-1 child 0,
level-2 child 0. -/
theorem claim_C8_witness :
    p4est_quadrant_is_ancestor ⟨0, 0, 0, 0⟩ ⟨0, 0, 2, 0⟩ = true :=
  claim_C8_ancestor_trans ⟨0, 0, 0, 0⟩ ⟨0, 0, 1, 0⟩ ⟨0, 0, 2, 0⟩
    (by decide) (by decide) (by decide) (by decide) (by decide) (by decide)
    (by decide) (by decide)

/-- Claim C10: the coordinate-transform operations write only the Morton
coordinates and level into their output quadrants; the user-data handle of
every output quadrant (the pre-state `r`, `c0..c3`, or the quadrant given
to the linear-index constructor) is left unchanged. -/
theorem claim_C10_user_data_frame (q r c0 c1 c2 c3 q1 q2 s : Quadrant)
    (level index : Nat) :
    (p4est_quadrant_parent q r).user_data = r.user_data ∧
    (p4est_quadrant_children q c0 c1 c2 c3).1.user_data = c0.user_data ∧
    (p4est_quadrant_children q c0 c1 c2 c3).2.1.user_data = c1.user_data ∧
    (p4est_quadrant_children q c0 c1 c2 c3).2.2.1.user_data = c2.user_data ∧
    (p4est_quadrant_children q c0 c1 c2 c3).2.2.2.user_data = c3.user_data ∧
    (p4est_nearest_common_ancestor q1 q2 r).user_data = r.user_data ∧
    (p4est_quadrant_set_morton s level index).elim s.user_data
      Quadrant.user_data = s.user_data := by
  refine ⟨rfl, rfl, rfl, rfl, rfl, rfl, ?_⟩
  unfold p4est_quadrant_set_morton
  by_cases h : level < 16 ∧ index < 4 ^ level
  · rw [if_pos h]
    rfl
  · rw [if_neg h]
    rfl

theorem deintAux_lt : ∀ (f m : Nat), deintAux f m < 2 ^ f := by
  intro f
  induction f with
  | zero => intro m; simp [deintAux]
  | succ f ih =>
    intro m
    have h := ih (m / 4)
    have hp : (2:Nat) ^ (f + 1) = 2 * 2 ^ f := by rw [pow_succ]; ring
    simp only [deintAux]
    omega

/-- Claim C9: the linear-index constructor has the documented numeric
precondition `level < 16` (so the 2D linear index fits 32 bits,
`morton_xy < INT32_MAX`); under the precondition the bit-packing cannot
overflow (the produced quadrant is a valid canonical quadrant at that
level), and out-of-range arguments are rejected explicitly at the API
boundary rather than silently wrapped. -/
theorem claim_C9_set_morton_guard (q : Quadrant) (level index : Nat)
    (h1 : level < 16) (h2 : index < 4 ^ level) :
    (∃ q', p4est_quadrant_set_morton q level index = some q' ∧
      p4est_quadrant_is_valid q' = true ∧ q'.level = level) ∧
    index < 2 ^ 31 - 1 ∧
    (∀ l i : Nat, ¬(l < 16 ∧ i < 4 ^ l) →
      p4est_quadrant_set_morton q l i = none) := by
  have hl30 : level ≤ P4EST_MAXLEVEL := by
    unfold P4EST_MAXLEVEL
    omega
  have hdx : deintAux level index < 2 ^ level := deintAux_lt _ _
  have hdy : deintAux level (index / 2) < 2 ^ level := deintAux_lt _ _
  have hbound : ∀ d : Nat, d < 2 ^ level →
      d * qlen level < 2 ^ P4EST_MAXLEVEL := by
    intro d hd
    have h1' : d * qlen level < 2 ^ level * qlen level :=
      (Nat.mul_lt_mul_right (qlen_pos level)).mpr hd
    have h2' : (2:Nat) ^ level * qlen level = 2 ^ P4EST_MAXLEVEL := by
      unfold qlen
      rw [← pow_add]
      congr 1
      omega
    omega
  refine ⟨?_, ?_, ?_⟩
  · refine ⟨⟨deintAux level index * qlen level,
      deintAux level (index / 2) * qlen level, level, q.user_data⟩,
      ?_, ?_, rfl⟩
    · unfold p4est_quadrant_set_morton
      rw [if_pos ⟨h1, h2⟩]
    · apply is_valid_iff.mpr
      refine ⟨hl30, hbound _ hdx, hbound _ hdy, ?_, ?_⟩
      · exact Nat.mul_mod_left _ _
      · exact Nat.mul_mod_left _ _
  · have h415 : (4:Nat) ^ level ≤ 4 ^ 15 :=
      Nat.pow_le_pow_right (by decide) (by omega)
    have hmag : (4:Nat) ^ 15 < 2 ^ 31 - 1 := by decide
    omega
  · intro l i hni
    unfold p4est_quadrant_set_morton
    rw [if_neg hni]

/-- Witness for C9: the guarantee at level 1, index 2, plus the rejection
of an out-of-range call. -/
theorem claim_C9_witness :
    (1 < 16 ∧ 2 < 4 ^ 1) ∧
    ((∃ q', p4est_quadrant_set_morton ⟨7, 8, 9, 3⟩ 1 2 = some q' ∧
      p4est_quadrant_is_valid q' = true ∧ q'.level = 1) ∧
     2 < 2 ^ 31 - 1 ∧
     (∀ l i : Nat, ¬(l < 16 ∧ i < 4 ^ l) →
       p4est_quadrant_set_morton ⟨7, 8, 9, 3⟩ l i = none)) :=
  ⟨by decide, claim_C9_set_morton_guard ⟨7, 8, 9, 3⟩ 1 2 (by decide) (by decide)⟩

/-- The strict-total-order laws of the comparator at a triple of quadrants:
antisymmetry (exact sign flip), transitivity, reflexive zero, zero only for
identical coordinates and level, and the coarser-sorts-first tie-break for
a coarser quadrant and a finer descendant at the same origin. -/
def compareLaws (q1 q2 q3 : Quadrant) : Prop :=
  p4est_quadrant_compare q1 q2 = -p4est_quadrant_compare q2 q1 ∧
  (p4est_quadrant_compare q1 q2 < 0 → p4est_quadrant_compare q2 q3 < 0 →
    p4est_quadrant_compare q1 q3 < 0) ∧
  p4est_quadrant_compare q1 q1 = 0 ∧
  (p4est_quadrant_compare q1 q2 = 0 →
    q1.x = q2.x ∧ q1.y = q2.y ∧ q1.level = q2.level) ∧
  (q1.x = q2.x → q1.y = q2.y → q1.level < q2.level →
    p4est_quadrant_compare q1 q2 < 0)

/-- Claim C3: the comparator is a strict total order on distinct valid
quadrants: antisymmetric, transitive, zero on equal arguments, zero only
for truly identical quadrants (equal coordinates and level), with the
coarser quadrant sorting before a same-origin finer descendant. -/
theorem claim_C3_compare_total_order (q1 q2 q3 : Quadrant)
    (hv1 : p4est_quadrant_is_valid q1 = true)
    (hv2 : p4est_quadrant_is_valid q2 = true)
    (hv3 : p4est_quadrant_is_valid q3 = true) :
    compareLaws q1 q2 q3 := by
  obtain ⟨hl1, hx1, hy1, _, _⟩ := is_valid_iff.mp hv1
  obtain ⟨hl2, hx2, hy2, _, _⟩ := is_valid_iff.mp hv2
  have hP32 : (2:Nat) ^ P4EST_MAXLEVEL ≤ 2 ^ 32 :=
    Nat.pow_le_pow_right (by decide) (by unfold P4EST_MAXLEVEL; omega)
  refine ⟨?_, ?_, ?_, ?_, ?_⟩
  · unfold p4est_quadrant_compare
    by_cases h : mortonVal q1 = mortonVal q2
    · rw [if_pos h, if_pos h.symm]
      omega
    · rw [if_neg h, if_neg (fun he => h he.symm)]
      omega
  · intro ha hb
    rcases compare_neg_iff.mp ha with h | ⟨he, hl⟩ <;>
      rcases compare_neg_iff.mp hb with h' | ⟨he', hl'⟩ <;>
      apply compare_neg_iff.mpr
    · left
      omega
    · left
      omega
    · left
      omega
    · right
      exact ⟨he.trans he', by omega⟩
  · unfold p4est_quadrant_compare
    rw [if_pos rfl]
    omega
  · intro h0
    by_cases h : mortonVal q1 = mortonVal q2
    · obtain ⟨hxe, hye⟩ := mortonAux_inj (f := 32)
        (lt_of_lt_of_le hx1 hP32) (lt_of_lt_of_le hy1 hP32)
        (lt_of_lt_of_le hx2 hP32) (lt_of_lt_of_le hy2 hP32) h
      unfold p4est_quadrant_compare at h0
      rw [if_pos h] at h0
      exact ⟨hxe, hye, by omega⟩
    · exfalso
      unfold p4est_quadrant_compare at h0
      rw [if_neg h] at h0
      apply h
      omega
  · intro hx hy hl
    apply compare_neg_iff.mpr
    right
    refine ⟨?_, hl⟩
    unfold mortonVal
    rw [hx, hy]

/-- Witness for C3: the comparator laws at a concrete valid triple. -/
theorem claim_C3_witness :
    p4est_quadrant_is_valid ⟨0, 0, 0, 0⟩ = true ∧
    p4est_quadrant_is_valid ⟨0, 0, 1, 0⟩ = true ∧
    p4est_quadrant_is_valid ⟨2 ^ 29, 0, 1, 0⟩ = true ∧
    compareLaws ⟨0, 0, 0, 0⟩ ⟨0, 0, 1, 0⟩ ⟨2 ^ 29, 0, 1, 0⟩ :=
  ⟨by decide, by decide, by decide,
   claim_C3_compare_total_order ⟨0, 0, 0, 0⟩ ⟨0, 0, 1, 0⟩ ⟨2 ^ 29, 0, 1, 0⟩
     (by decide) (by decide) (by decide)⟩

theorem child_reconstruct {q : Quadrant} (hv : p4est_quadrant_is_valid q = true)
    (hpos : 0 < q.level) (I : Nat)
    (hxI : I % 2 = q.x / qlen q.level % 2)
    (hyI : I / 2 % 2 = q.y / qlen q.level % 2) :
    setCoords q (childOf (p4est_quadrant_parent q q) I) = q := by
  obtain ⟨hl, hx, hy, hcx, hcy⟩ := is_valid_iff.mp hv
  have hlevq : q.level - 1 + 1 = q.level := by omega
  have hstep_x : coordTrunc (q.level - 1) q.x +
      q.x / qlen q.level % 2 * qlen q.level = q.x := by
    have h := coordTrunc_step (l := q.level - 1) (by omega) q.x
    rw [hlevq] at h
    rw [coordTrunc_eq_self hcx] at h
    omega
  have hstep_y : coordTrunc (q.level - 1) q.y +
      q.y / qlen q.level % 2 * qlen q.level = q.y := by
    have h := coordTrunc_step (l := q.level - 1) (by omega) q.y
    rw [hlevq] at h
    rw [coordTrunc_eq_self hcy] at h
    omega
  refine quadrant_ext ?_ ?_ ?_ rfl
  · show coordTrunc (q.level - 1) q.x + I % 2 * qlen (q.level - 1 + 1) = q.x
    rw [hlevq, hxI]
    exact hstep_x
  · show coordTrunc (q.level - 1) q.y + I / 2 % 2 * qlen (q.level - 1 + 1) = q.y
    rw [hlevq, hyI]
    exact hstep_y
  · show q.level - 1 + 1 = q.level
    exact hlevq

/-- Claim C4: for every valid quadrant with positive level, taking the
parent and then selecting, among the four children of that parent, the one
at index `child_id(q)` reproduces `q` exactly (identical coordinates and
level; the pre-state quadrants are all `q` itself, so the equality is full
structural equality). -/
theorem claim_C4_parent_child_roundtrip (q : Quadrant)
    (hv : p4est_quadrant_is_valid q = true) (hpos : 0 < q.level) :
    [(p4est_quadrant_children (p4est_quadrant_parent q q) q q q q).1,
     (p4est_quadrant_children (p4est_quadrant_parent q q) q q q q).2.1,
     (p4est_quadrant_children (p4est_quadrant_parent q q) q q q q).2.2.1,
     (p4est_quadrant_children (p4est_quadrant_parent q q) q q q q).2.2.2].getD
      (p4est_quadrant_child_id q) (p4est_quadrant_parent q q) = q := by
  have hid : p4est_quadrant_child_id q =
      q.x / qlen q.level % 2 + 2 * (q.y / qlen q.level % 2) := rfl
  have hxb : q.x / qlen q.level % 2 = 0 ∨ q.x / qlen q.level % 2 = 1 := by omega
  have hyb : q.y / qlen q.level % 2 = 0 ∨ q.y / qlen q.level % 2 = 1 := by omega
  rcases hxb with hxb | hxb <;> rcases hyb with hyb | hyb
  · have hI : p4est_quadrant_child_id q = 0 := by rw [hid, hxb, hyb]
    rw [hI]
    show setCoords q (childOf (p4est_quadrant_parent q q) 0) = q
    exact child_reconstruct hv hpos 0 (by omega) (by omega)
  · have hI : p4est_quadrant_child_id q = 2 := by rw [hid, hxb, hyb]
    rw [hI]
    show setCoords q (childOf (p4est_quadrant_parent q q) 2) = q
    exact child_reconstruct hv hpos 2 (by omega) (by omega)
  · have hI : p4est_quadrant_child_id q = 1 := by rw [hid, hxb, hyb]
    rw [hI]
    show setCoords q (childOf (p4est_quadrant_parent q q) 1) = q
    exact child_reconstruct hv hpos 1 (by omega) (by omega)
  · have hI : p4est_quadrant_child_id q = 3 := by rw [hid, hxb, hyb]
    rw [hI]
    show setCoords q (childOf (p4est_quadrant_parent q q) 3) = q
    exact child_reconstruct hv hpos 3 (by omega) (by omega)

/-- Witness for C4: the round trip at a concrete valid level-2 quadrant
with child id 3. -/
theorem claim_C4_witness :
    [(p4est_quadrant_children
        (p4est_quadrant_parent ⟨3 * 2 ^ 28, 2 ^ 28, 2, 9⟩
          ⟨3 * 2 ^ 28, 2 ^ 28, 2, 9⟩)
        ⟨3 * 2 ^ 28, 2 ^ 28, 2, 9⟩ ⟨3 * 2 ^ 28, 2 ^ 28, 2, 9⟩
        ⟨3 * 2 ^ 28, 2 ^ 28, 2, 9⟩ ⟨3 * 2 ^ 28, 2 ^ 28, 2, 9⟩).1,
     (p4est_quadrant_children
        (p4est_quadrant_parent ⟨3 * 2 ^ 28, 2 ^ 28, 2, 9⟩
          ⟨3 * 2 ^ 28, 2 ^ 28, 2, 9⟩)
        ⟨3 * 2 ^ 28, 2 ^ 28, 2, 9⟩ ⟨3 * 2 ^ 28, 2 ^ 28, 2, 9⟩
        ⟨3 * 2 ^ 28, 2 ^ 28, 2, 9⟩ ⟨3 * 2 ^ 28, 2 ^ 28, 2, 9⟩).2.1,
     (p4est_quadrant_children
        (p4est_quadrant_parent ⟨3 * 2 ^ 28, 2 ^ 28, 2, 9⟩
          ⟨3 * 2 ^ 28, 2 ^ 28, 2, 9⟩)
        ⟨3 * 2 ^ 28, 2 ^ 28, 2, 9⟩ ⟨3 * 2 ^ 28, 2 ^ 28, 2, 9⟩
        ⟨3 * 2 ^ 28, 2 ^ 28, 2, 9⟩ ⟨3 * 2 ^ 28, 2 ^ 28, 2, 9⟩).2.2.1,
     (p4est_quadrant_children
        (p4est_quadrant_parent ⟨3 * 2 ^ 28, 2 ^ 28, 2, 9⟩
          ⟨3 * 2 ^ 28, 2 ^ 28, 2, 9⟩)
        ⟨3 * 2 ^ 28, 2 ^ 28, 2, 9⟩ ⟨3 * 2 ^ 28, 2 ^ 28, 2, 9⟩
        ⟨3 * 2 ^ 28, 2 ^ 28, 2, 9⟩ ⟨3 * 2 ^ 28, 2 ^ 28, 2, 9⟩).2.2.2].getD
      (p4est_quadrant_child_id ⟨3 * 2 ^ 28, 2 ^ 28, 2, 9⟩)
      (p4est_quadrant_parent ⟨3 * 2 ^ 28, 2 ^ 28, 2, 9⟩
        ⟨3 * 2 ^ 28, 2 ^ 28, 2, 9⟩) = ⟨3 * 2 ^ 28, 2 ^ 28, 2, 9⟩ :=
  claim_C4_parent_child_roundtrip ⟨3 * 2 ^ 28, 2 ^ 28, 2, 9⟩
    (by decide) (by decide)

/-- The four children produced by `p4est_quadrant_children` with all
pre-states equal to the input quadrant, as a list in child-id order. -/
def childrenListOf (q : Quadrant) : List Quadrant :=
  [(p4est_quadrant_children q q q q q).1,
   (p4est_quadrant_children q q q q q).2.1,
   (p4est_quadrant_children q q q q q).2.2.1,
   (p4est_quadrant_children q q q q q).2.2.2]

instance inExtent_decidable (q : Quadrant) (u v : Nat) :
    Decidable (inExtent q u v) := by
  unfold inExtent
  exact inferInstance

/-- Counterexample for C5 as stated: at the valid quadrant of maximum level
`P4EST_MAXLEVEL`, the children cannot be represented one level deeper, and
the produced "children" do not tile the parent's coordinate extent: the
second child covers the point (1,0), which lies outside the parent. -/
theorem claim_C5_counterexample :
    p4est_quadrant_is_valid ⟨0, 0, 30, 0⟩ = true ∧
    inExtent ((childrenListOf ⟨0, 0, 30, 0⟩).getD 1 ⟨0, 0, 30, 0⟩) 1 0 ∧
    ¬ inExtent ⟨0, 0, 30, 0⟩ 1 0 := by
  decide

theorem div_parity {h a : Nat} (hh : 0 < h) (hdvd : 2 * h ∣ a) :
    a / h % 2 = 0 := by
  obtain ⟨m, rfl⟩ := hdvd
  have he : 2 * h * m = h * (2 * m) := by ring
  rw [he, Nat.mul_div_cancel_left _ hh]
  omega

theorem childOf_id {q : Quadrant} (hv : p4est_quadrant_is_valid q = true)
    (hl : q.level < P4EST_MAXLEVEL) {i : Nat} (hi : i < 4) :
    p4est_quadrant_child_id (childOf q i) = i := by
  obtain ⟨_, _, _, hcx, hcy⟩ := is_valid_iff.mp hv
  have hq2 : qlen q.level = 2 * qlen (q.level + 1) := by
    unfold qlen
    rw [show P4EST_MAXLEVEL - q.level = (P4EST_MAXLEVEL - (q.level + 1)) + 1
      by omega, pow_succ]
    ring
  have hpos : 0 < qlen (q.level + 1) := qlen_pos _
  show (q.x + i % 2 * qlen (q.level + 1)) / qlen (q.level + 1) % 2 +
    2 * ((q.y + i / 2 % 2 * qlen (q.level + 1)) / qlen (q.level + 1) % 2) = i
  rw [Nat.add_mul_div_right _ _ hpos, Nat.add_mul_div_right _ _ hpos]
  have hx0 : q.x / qlen (q.level + 1) % 2 = 0 := by
    apply div_parity hpos
    rw [← hq2]
    exact Nat.dvd_of_mod_eq_zero hcx
  have hy0 : q.y / qlen (q.level + 1) % 2 = 0 := by
    apply div_parity hpos
    rw [← hq2]
    exact Nat.dvd_of_mod_eq_zero hcy
  omega

/-- Claim C5, amended: for every valid quadrant of level strictly below
`P4EST_MAXLEVEL` (the counterexample shows the level-`P4EST_MAXLEVEL` case
fails, children one level deeper being unrepresentable), the four produced
children partition the parent: their extents cover exactly the parent's
extent, they are pairwise non-overlapping, and the child id of the `i`-th
produced child is `i`. -/
theorem claim_C5_children_partition (q : Quadrant)
    (hv : p4est_quadrant_is_valid q = true)
    (hml : q.level < P4EST_MAXLEVEL) :
    (∀ u v : Nat, inExtent q u v ↔ ∃ c ∈ childrenListOf q, inExtent c u v) ∧
    List.Pairwise (fun c d => ∀ u v : Nat, ¬(inExtent c u v ∧ inExtent d u v))
      (childrenListOf q) ∧
    (∀ i : Nat, i < 4 →
      p4est_quadrant_child_id ((childrenListOf q).getD i q) = i) := by
  have hlist : childrenListOf q =
      [childOf q 0, childOf q 1, childOf q 2, childOf q 3] := rfl
  have hq2 : qlen q.level = 2 * qlen (q.level + 1) := by
    unfold qlen
    rw [show P4EST_MAXLEVEL - q.level = (P4EST_MAXLEVEL - (q.level + 1)) + 1
      by omega, pow_succ]
    ring
  have hpos : 0 < qlen (q.level + 1) := qlen_pos _
  have ext_child : ∀ u v : Nat, ∀ i : Nat, i < 4 →
      (inExtent (childOf q i) u v ↔
        (q.x + i % 2 * qlen (q.level + 1) ≤ u ∧
         u < q.x + i % 2 * qlen (q.level + 1) + qlen (q.level + 1) ∧
         q.y + i / 2 % 2 * qlen (q.level + 1) ≤ v ∧
         v < q.y + i / 2 % 2 * qlen (q.level + 1) + qlen (q.level + 1))) := by
    intro u v i _
    exact Iff.rfl
  refine ⟨?_, ?_, ?_⟩
  · intro u v
    constructor
    · intro h
      obtain ⟨h1, h2, h3, h4⟩ := h
      rw [hlist]
      by_cases hu : u < q.x + qlen (q.level + 1) <;>
        by_cases hw : v < q.y + qlen (q.level + 1)
      · exact ⟨childOf q 0, by simp,
          (ext_child u v 0 (by omega)).mpr (by omega)⟩
      · exact ⟨childOf q 2, by simp,
          (ext_child u v 2 (by omega)).mpr (by omega)⟩
      · exact ⟨childOf q 1, by simp,
          (ext_child u v 1 (by omega)).mpr (by omega)⟩
      · exact ⟨childOf q 3, by simp,
          (ext_child u v 3 (by omega)).mpr (by omega)⟩
    · intro ⟨c, hc, hin⟩
      rw [hlist] at hc
      simp only [List.mem_cons, List.not_mem_nil, or_false] at hc
      show q.x ≤ u ∧ u < q.x + qlen q.level ∧ q.y ≤ v ∧ v < q.y + qlen q.level
      rcases hc with rfl | rfl | rfl | rfl
      · have := (ext_child u v 0 (by omega)).mp hin
        omega
      · have := (ext_child u v 1 (by omega)).mp hin
        omega
      · have := (ext_child u v 2 (by omega)).mp hin
        omega
      · have := (ext_child u v 3 (by omega)).mp hin
        omega
  · rw [hlist]
    have disj : ∀ i j : Nat, i < 4 → j < 4 → i ≠ j → ∀ u v : Nat,
        ¬(inExtent (childOf q i) u v ∧ inExtent (childOf q j) u v) := by
      intro i j hi hj hij u v ⟨ha, hb⟩
      have h1 := (ext_child u v i hi).mp ha
      have h2 := (ext_child u v j hj).mp hb
      have hij' : i % 2 ≠ j % 2 ∨ i / 2 % 2 ≠ j / 2 % 2 := by omega
      rcases hij' with hne | hne
      · have hi2 : i % 2 = 0 ∨ i % 2 = 1 := by omega
        have hj2 : j % 2 = 0 ∨ j % 2 = 1 := by omega
        rcases hi2 with h1' | h1' <;> rcases hj2 with h2' | h2' <;>
          rw [h1'] at h1 <;> rw [h2'] at h2 <;> omega
      · have hi2 : i / 2 % 2 = 0 ∨ i / 2 % 2 = 1 := by omega
        have hj2 : j / 2 % 2 = 0 ∨ j / 2 % 2 = 1 := by omega
        rcases hi2 with h1' | h1' <;> rcases hj2 with h2' | h2' <;>
          rw [h1'] at h1 <;> rw [h2'] at h2 <;> omega
    refine List.Pairwise.cons ?_ (List.Pairwise.cons ?_
      (List.Pairwise.cons ?_ (List.pairwise_singleton _ _)))
    · intro d hd
      simp only [List.mem_cons, List.not_mem_nil, or_false] at hd
      rcases hd with rfl | rfl | rfl
      · exact fun u v h => disj 0 1 (by omega) (by omega) (by omega) u v h
      · exact fun u v h => disj 0 2 (by omega) (by omega) (by omega) u v h
      · exact fun u v h => disj 0 3 (by omega) (by omega) (by omega) u v h
    · intro d hd
      simp only [List.mem_cons, List.not_mem_nil, or_false] at hd
      rcases hd with rfl | rfl
      · exact fun u v h => disj 1 2 (by omega) (by omega) (by omega) u v h
      · exact fun u v h => disj 1 3 (by omega) (by omega) (by omega) u v h
    · intro d hd
      simp only [List.mem_cons, List.not_mem_nil, or_false] at hd
      rcases hd with rfl
      exact fun u v h => disj 2 3 (by omega) (by omega) (by omega) u v h
  · intro i hi
    have : i = 0 ∨ i = 1 ∨ i = 2 ∨ i = 3 := by omega
    rcases this with rfl | rfl | rfl | rfl
    · exact childOf_id hv hml (by omega)
    · exact childOf_id hv hml (by omega)
    · exact childOf_id hv hml (by omega)
    · exact childOf_id hv hml (by omega)

/-- Witness for the amended C5: the partition at the root quadrant. -/
theorem claim_C5_witness :
    p4est_quadrant_is_valid ⟨0, 0, 0, 0⟩ = true ∧
    ((∀ u v : Nat, inExtent ⟨0, 0, 0, 0⟩ u v ↔
        ∃ c ∈ childrenListOf ⟨0, 0, 0, 0⟩, inExtent c u v) ∧
     List.Pairwise (fun c d => ∀ u v : Nat,
        ¬(inExtent c u v ∧ inExtent d u v)) (childrenListOf ⟨0, 0, 0, 0⟩) ∧
     (∀ i : Nat, i < 4 →
        p4est_quadrant_child_id ((childrenListOf ⟨0, 0, 0, 0⟩).getD i
          ⟨0, 0, 0, 0⟩) = i)) :=
  ⟨by decide, claim_C5_children_partition ⟨0, 0, 0, 0⟩ (by decide) (by decide)⟩

/-- Claim C2: for every pair of valid quadrants with `q1` strictly below
`q2` in the Morton ordering and any inclusion flags, the tree produced by
the region construction on an empty input tree satisfies
`p4est_tree_is_sorted`: every adjacent pair of output quadrants is strictly
increasing under the comparator. -/
theorem claim_C2_region_sorted (q1 q2 : Quadrant)
    (hv1 : p4est_quadrant_is_valid q1 = true)
    (hv2 : p4est_quadrant_is_valid q2 = true)
    (hlt : p4est_quadrant_compare q1 q2 < 0)
    (inc1 inc2 : Bool) (t : List Quadrant)
    (hout : p4est_complete_region q1 inc1 q2 inc2 [] = some t) :
    p4est_tree_is_sorted t = true := by
  obtain ⟨hc, h1, h2⟩ := interior_facts hv1 hv2 hlt
  unfold p4est_complete_region at hout
  rw [if_pos hlt] at hout
  simp only [List.nil_append] at hout
  have ht := Option.some.inj hout
  rw [← ht]
  exact sorted_assemble hc h1 h2 hlt inc1 inc2

/-- Witness for C2: sortedness of a concrete mixed-level construction
(q1 at level 2 inside the first child, q2 the last level-1 child,
including q1 but not q2). -/
theorem claim_C2_witness :
    p4est_quadrant_is_valid ⟨0, 0, 2, 0⟩ = true ∧
    p4est_quadrant_is_valid ⟨2 ^ 29, 2 ^ 29, 1, 0⟩ = true ∧
    p4est_quadrant_compare ⟨0, 0, 2, 0⟩ ⟨2 ^ 29, 2 ^ 29, 1, 0⟩ < 0 ∧
    p4est_tree_is_sorted
      [⟨0, 0, 2, 0⟩, ⟨2 ^ 28, 0, 2, 0⟩, ⟨0, 2 ^ 28, 2, 0⟩,
       ⟨2 ^ 28, 2 ^ 28, 2, 0⟩, ⟨2 ^ 29, 0, 1, 0⟩, ⟨0, 2 ^ 29, 1, 0⟩] = true :=
  ⟨by decide, by decide, by decide,
   claim_C2_region_sorted ⟨0, 0, 2, 0⟩ ⟨2 ^ 29, 2 ^ 29, 1, 0⟩ (by decide)
     (by decide) (by decide) true false _ (by decide)⟩
